import Mathlib

/-!
Verification of the Avro_Diff core (src/index.js): the key-based merge-join
diff (`keyDiff` / `keyDiffHelper`), its primitives (`constructKey`,
`lexCompare`, `diffIsEmpty`, `isEmpty`), and the multiset venn engine
(`vennParser`).  JavaScript records decoded from Avro files are embedded as a
recursive value type; JavaScript objects become ordered association lists,
and the external libraries `deep-object-diff` (`detailedDiff`) and
`json-stable-stringify` (the canonical serializer) are modelled from the
specification, as noted on their definitions.
-/

namespace AvroDiff

/-- A decoded JavaScript value: `null`, `undefined`, booleans, (integer)
numbers, strings, arrays and objects.  Objects are ordered association lists
of fields, mirroring JavaScript property insertion order. -/
inductive Value where
  | vnull : Value
  | vundef : Value
  | vbool (b : Bool) : Value
  | vint (n : Int) : Value
  | vstr (s : String) : Value
  | varr (elems : List Value) : Value
  | vobj (fields : List (String × Value)) : Value
deriving Repr

mutual

/-- Structural syntactic equality test for values (field order sensitive). -/
def Value.beq : Value → Value → Bool
  | .vnull, .vnull => true
  | .vundef, .vundef => true
  | .vbool a, .vbool b => a == b
  | .vint a, .vint b => a == b
  | .vstr a, .vstr b => a == b
  | .varr as, .varr bs => Value.beqList as bs
  | .vobj as, .vobj bs => Value.beqFields as bs
  | _, _ => false

/-- Syntactic equality of value lists, element by element. -/
def Value.beqList : List Value → List Value → Bool
  | [], [] => true
  | a :: as, b :: bs => Value.beq a b && Value.beqList as bs
  | _, _ => false

/-- Syntactic equality of field lists, pair by pair. -/
def Value.beqFields : List (String × Value) → List (String × Value) → Bool
  | [], [] => true
  | (k, v) :: as, (l, w) :: bs => k == l && Value.beq v w && Value.beqFields as bs
  | _, _ => false

end

/-- JavaScript `row == null`, true exactly for `null` and `undefined`. -/
def Value.isNullish : Value → Bool
  | .vnull => true
  | .vundef => true
  | _ => false

/-- JavaScript property access `row[field]`: looks the field up in an object,
yielding `undefined` when the field is missing or the receiver is not an
object. -/
def getField (row : Value) (field : String) : Value :=
  match row with
  | .vobj fs => match fs.lookup field with
    | some v => v
    | none => .vundef
  | _ => Value.vundef

/-- JavaScript `String(v)` for the values that occur as key fields:
`String(null) = "null"`, `String(undefined) = "undefined"`, booleans and
integers print as usual, strings are returned unchanged; arrays join their
elements with commas (nullish elements becoming empty) and plain objects
print as `[object Object]`. -/
def jsString : Value → String
  | .vnull => "null"
  | .vundef => "undefined"
  | .vbool true => "true"
  | .vbool false => "false"
  | .vint n => toString n
  | .vstr s => s
  | .varr es => String.intercalate "," (es.map fun e =>
      match e with
      | .vnull => ""
      | .vundef => ""
      | .vbool true => "true"
      | .vbool false => "false"
      | .vint n => toString n
      | .vstr s => s
      | _ => "")
  | .vobj _ => "[object Object]"

/-- `constructKey` from src/index.js: `null` for a nullish row, otherwise the
array of `String(row[field])` over the key fields in order. -/
def constructKey (row : Value) (fields : List String) : Option (List String) :=
  if row.isNullish then none
  else some (fields.map fun field => jsString (getField row field))

/-- JavaScript string comparison `a < b`: lexicographic on the character
sequences (first mismatching character decides, else the shorter string is
smaller). -/
def charListLt : List Char → List Char → Bool
  | [], [] => false
  | [], _ :: _ => true
  | _ :: _, [] => false
  | a :: as, b :: bs => if a < b then true else if b < a then false else charListLt as bs

/-- JavaScript `a < b` on strings. -/
def strLt (a b : String) : Bool := charListLt a.data b.data

/-- JavaScript `a <= b` on strings (the negation of `b < a`). -/
def strLe (a b : String) : Bool := !strLt b a

/-- The element-wise loop of `lexCompare` from src/index.js: iterate up to the
shorter length, the first mismatching element decides the sign, otherwise the
difference of the lengths is returned. -/
def lexCompareAux : List String → List String → Int
  | [], bs => -(bs.length : Int)
  | _ :: as, [] => (as.length : Int) + 1
  | a :: as, b :: bs =>
      if strLt a b then -1
      else if strLt b a then 1
      else lexCompareAux as bs

/-- `lexCompare` from src/index.js: nulls sort after every non-null array and
equal to each other; non-null arrays compare element-wise. -/
def lexCompare : Option (List String) → Option (List String) → Int
  | none, none => 0
  | none, some _ => 1
  | some _, none => -1
  | some as, some bs => lexCompareAux as bs

/-- Sort an object's fields by key name, as the stable-stringify serializer
does at every nesting level. -/
def fieldLE (a b : String × Value) : Prop := strLe a.1 b.1 = true

instance fieldLE.instDecidable : DecidableRel fieldLE :=
  fun _ _ => inferInstanceAs (Decidable (_ = _))

def sortByKey (fs : List (String × Value)) : List (String × Value) :=
  List.insertionSort fieldLE fs

mutual

/-- Recursively sort every object's fields by key.  Two values are deep
structurally equal irrespective of field insertion order exactly when their
normal forms coincide (proved below for well-formed values). -/
def normalize : Value → Value
  | .vnull => .vnull
  | .vundef => .vundef
  | .vbool b => .vbool b
  | .vint n => .vint n
  | .vstr s => .vstr s
  | .varr es => .varr (normalizeList es)
  | .vobj fs => .vobj (sortByKey (normalizeFields fs))

/-- `normalize` mapped over the elements of an array. -/
def normalizeList : List Value → List Value
  | [] => []
  | v :: vs => normalize v :: normalizeList vs

/-- `normalize` mapped over the values of a field list. -/
def normalizeFields : List (String × Value) → List (String × Value)
  | [] => []
  | (k, v) :: fs => (k, normalize v) :: normalizeFields fs

end

/-- Modelled from the spec: the deep structural equality at which the
field-level diff of the external deep-object-diff library considers two
values unchanged — equality of record trees irrespective of field insertion
order at every nesting depth. -/
def deepEq (v w : Value) : Bool :=
  Value.beq (normalize v) (normalize w)

/-- The fields of a value when it is an object, and nothing otherwise; the
field walk of the field-level diff ranges over these. -/
def fieldsOf : Value → List (String × Value)
  | .vobj fs => fs
  | _ => []

/-- Modelled from the spec: `detailedDiff` of the external deep-object-diff
library, absent from src/.  Walks the fields of the two records: a field only
in the new record lands in `added`, a field only in the old record in
`deleted`, and a field present in both whose values are not deep structurally
equal lands in `updated` with the new record's value. -/
def detailedDiff (oldRec newRec : Value) : Value :=
  let ofs := fieldsOf oldRec
  let nfs := fieldsOf newRec
  .vobj
    [("added", .vobj (nfs.filter fun kv => (ofs.lookup kv.1).isNone)),
     ("deleted", .vobj (ofs.filter fun kv => (nfs.lookup kv.1).isNone)),
     ("updated", .vobj (nfs.filterMap fun kv =>
        match ofs.lookup kv.1 with
        | some w => if deepEq w kv.2 then none else some kv
        | none => none))]

/-- `isEmpty` from src/index.js: true when the value is nullish or has no
own enumerable keys (`Object.keys(obj).length === 0`). -/
def isEmpty : Value → Bool
  | .vnull => true
  | .vundef => true
  | .vobj fs => fs.isEmpty
  | .varr es => es.isEmpty
  | .vstr s => s.isEmpty
  | .vbool _ => true
  | .vint _ => true

/-- `diffIsEmpty` from src/index.js: the diff object is empty, or all of its
`added`, `deleted` and `updated` fields are empty. -/
def diffIsEmpty (diffObj : Value) : Bool :=
  isEmpty diffObj ||
    (isEmpty (getField diffObj "added") && isEmpty (getField diffObj "deleted") &&
      isEmpty (getField diffObj "updated"))

/-- One entry pushed by the merge walk: `{id: <composite key>, data: <row or
diff object>}`. -/
structure DiffEntry where
  id : Option (List String)
  data : Value
deriving Repr

/-- The output object of `keyDiffHelper`: the four classification lists. -/
structure DiffResult where
  removed : List DiffEntry
  added : List DiffEntry
  changed : List DiffEntry
  unchanged : List DiffEntry
deriving Repr

/-- The empty `DiffResult` the merge walk starts from. -/
def DiffResult.empty : DiffResult := ⟨[], [], [], []⟩

/-- The composite key the merge walk reads at cursor position `i`:
`i === arr.length ? null : constructKey(arr[i], key)`.  Out-of-range access
beyond the length yields JavaScript `undefined`, whose key is again `null`. -/
def keyAt (arr : List Value) (key : List String) (i : Nat) : Option (List String) :=
  if i = arr.length then none else constructKey (arr.getD i .vundef) key

/-- The two-cursor merge walk of `keyDiffHelper` (src/index.js lines
194-231), over the already-sorted arrays, as a fuel-indexed loop (`none`
reports fuel exhaustion, which never happens once the fuel exceeds the
remaining-cursor measure; see the totality theorem below): `order < 0`
pushes `{id: key1, data: arr1[i]}` to `removed` and advances `i`;
`order > 0` pushes `{id: key2, data: arr2[j]}` to `added` and advances `j`;
otherwise the field diff of the two rows is pushed to `changed` (or the new
row to `unchanged` when the diff is empty) and both cursors advance. -/
def mergeLoop : Nat → List String → List Value → List Value → Nat → Nat →
    DiffResult → Option DiffResult
  | 0, _, _, _, _, _, _ => none
  | fuel + 1, key, arr1, arr2, i, j, out =>
    if i < arr1.length ∨ j < arr2.length then
      if lexCompare (keyAt arr1 key i) (keyAt arr2 key j) < 0 then
        mergeLoop fuel key arr1 arr2 (i + 1) j
          { out with removed := out.removed ++ [⟨keyAt arr1 key i, arr1.getD i .vundef⟩] }
      else if 0 < lexCompare (keyAt arr1 key i) (keyAt arr2 key j) then
        mergeLoop fuel key arr1 arr2 i (j + 1)
          { out with added := out.added ++ [⟨keyAt arr2 key j, arr2.getD j .vundef⟩] }
      else if diffIsEmpty (detailedDiff (arr1.getD i .vundef) (arr2.getD j .vundef)) then
        mergeLoop fuel key arr1 arr2 (i + 1) (j + 1)
          { out with unchanged := out.unchanged ++ [⟨keyAt arr2 key j, arr2.getD j .vundef⟩] }
      else
        mergeLoop fuel key arr1 arr2 (i + 1) (j + 1)
          { out with changed := out.changed ++
              [⟨keyAt arr2 key j, detailedDiff (arr1.getD i .vundef) (arr2.getD j .vundef)⟩] }
    else some out

/-- The comparator `keyDiffHelper` sorts with, as a weak order on rows:
`lexCompare(constructKey(a, key), constructKey(b, key)) <= 0`. -/
def rowLE (key : List String) (a b : Value) : Prop :=
  lexCompare (constructKey a key) (constructKey b key) ≤ 0

instance rowLE.instDecidable (key : List String) : DecidableRel (rowLE key) :=
  fun _ _ => inferInstanceAs (Decidable (_ ≤ _))

/-- `keyDiffHelper` from src/index.js: sort both row arrays by the key
comparator, then run the two-cursor merge walk from the start with an empty
output.  The JavaScript engine sort is modelled as an insertion sort. -/
def keyDiffHelper (arr1 arr2 : List Value) (key : List String) : DiffResult :=
  let s1 := List.insertionSort (rowLE key) arr1
  let s2 := List.insertionSort (rowLE key) arr2
  (mergeLoop (s1.length + s2.length + 1) key s1 s2 0 0 .empty).getD .empty

/-- `keyDiffHelper` together with the final contents of the two
caller-supplied arrays: `Array.prototype.sort` sorts in place, so after the
call the caller's `arr1` and `arr2` hold the sorted sequences. -/
def keyDiffHelperPost (arr1 arr2 : List Value) (key : List String) :
    DiffResult × List Value × List Value :=
  let s1 := List.insertionSort (rowLE key) arr1
  let s2 := List.insertionSort (rowLE key) arr2
  ((mergeLoop (s1.length + s2.length + 1) key s1 s2 0 0 .empty).getD .empty, s1, s2)

/-- `keyDiff` from src/index.js with the Avro file decoding abstracted away:
the external decoder yields the two row arrays and `keyDiff` passes them,
with the key list, straight to `keyDiffHelper` — with no validation of the
key list whatsoever. -/
def keyDiff (arr1 arr2 : List Value) (key : List String) : DiffResult :=
  keyDiffHelper arr1 arr2 key

/-- The decimal digit character for `n < 10`. -/
def digitChar (n : Nat) : Char := Char.ofNat (48 + n)

/-- Decimal digits of a natural number, most significant first, without
leading zeros (`String(n)` for a non-negative integer number). -/
def natChars (n : Nat) : List Char :=
  if n < 10 then [digitChar n]
  else natChars (n / 10) ++ [digitChar (n % 10)]
termination_by n
decreasing_by exact Nat.div_lt_self (by omega) (by omega)

/-- `String(n)` / `JSON.stringify(n)` for an integer-valued number: decimal
digits with a leading minus sign for negatives. -/
def intChars (n : Int) : List Char :=
  if n < 0 then '-' :: natChars n.natAbs else natChars n.toNat

/-- Lowercase hexadecimal digit character for `n < 16`. -/
def hexChar (n : Nat) : Char :=
  if n < 10 then Char.ofNat (48 + n) else Char.ofNat (87 + n)

/-- Modelled from the spec: the string escaping `JSON.stringify` applies to
one character — backslash, double quote and the named control characters get
two-character escapes, the remaining control characters get `\u00XX`, and
every other character stands for itself. -/
def escapeChar (c : Char) : List Char :=
  if c = '\\' then ['\\', '\\']
  else if c = '"' then ['\\', '"']
  else if c = '\x08' then ['\\', 'b']
  else if c = '\x09' then ['\\', 't']
  else if c = '\x0a' then ['\\', 'n']
  else if c = '\x0c' then ['\\', 'f']
  else if c = '\x0d' then ['\\', 'r']
  else if c.toNat < 32 then ['\\', 'u', '0', '0', hexChar (c.toNat / 16), hexChar (c.toNat % 16)]
  else [c]

/-- Escape every character of a string body. -/
def escapeChars (s : List Char) : List Char := s.flatMap escapeChar

mutual

/-- Modelled from the spec: plain JSON serialization of a value, object
fields in the order given.  The canonical serializer composes this with
`normalize`, which sorts object fields at every level. -/
def serialize : Value → List Char
  | .vnull => ['n', 'u', 'l', 'l']
  | .vundef => []
  | .vbool true => ['t', 'r', 'u', 'e']
  | .vbool false => ['f', 'a', 'l', 's', 'e']
  | .vint n => intChars n
  | .vstr s => '"' :: escapeChars s.data ++ ['"']
  | .varr es => '[' :: serElems es ++ [']']
  | .vobj fs => '\x7b' :: serFields fs ++ ['\x7d']

/-- The comma-separated element list of a serialized array. -/
def serElems : List Value → List Char
  | [] => []
  | [v] => serialize v
  | v :: vs => serialize v ++ ',' :: serElems vs

/-- The comma-separated `"key":value` list of a serialized object. -/
def serFields : List (String × Value) → List Char
  | [] => []
  | [(k, v)] => '"' :: escapeChars k.data ++ '"' :: ':' :: serialize v
  | (k, v) :: fs => ('"' :: escapeChars k.data ++ '"' :: ':' :: serialize v) ++ ',' :: serFields fs

end

/-- Modelled from the spec: `json-stable-stringify`, absent from src/ — JSON
serialization with object keys sorted at every nesting level, so all
structurally equivalent objects map to the same string. -/
def stableStringify (v : Value) : String := String.mk (serialize (normalize v))

/-- The venn accumulator: three count maps, each a JavaScript object mapping
a canonical row string to a count. -/
structure Venn where
  removed : List (String × Nat)
  added : List (String × Nat)
  intersection : List (String × Nat)
deriving Repr, DecidableEq

/-- The initial venn object of `printVennDiff`. -/
def Venn.empty : Venn := ⟨[], [], []⟩

/-- Property read `m[k]` on a JavaScript count object. -/
def vget : List (String × Nat) → String → Option Nat
  | [], _ => none
  | (k', v') :: m, k => if k' = k then some v' else vget m k

/-- Property write `m[k] = v` on a JavaScript object: overwrite the existing
entry in place, or append a new one. -/
def vset : List (String × Nat) → String → Nat → List (String × Nat)
  | [], k, v => [(k, v)]
  | (k', v') :: m, k, v => if k' = k then (k, v) :: m else (k', v') :: vset m k v

/-- Property deletion `delete m[k]` on a JavaScript object. -/
def vdel : List (String × Nat) → String → List (String × Nat)
  | [], _ => []
  | (k', v') :: m, k => if k' = k then m else (k', v') :: vdel m k

/-- `vennParser` from src/index.js, one row: on the old-file pass (`num = 1`)
increment `removed[str]`; on the new-file pass, when `removed[str]` is truthy
decrement it (deleting the entry when it was 1) and increment
`intersection[str]`, otherwise increment `added[str]`.  `str` is the stable
stringification of the row. -/
def vennParserStep (num : Nat) (venn : Venn) (row : Value) : Venn :=
  let str := stableStringify row
  if num = 1 then
    { venn with removed := vset venn.removed str ((vget venn.removed str).getD 0 + 1) }
  else
    let r := (vget venn.removed str).getD 0
    if r ≠ 0 then
      let removed' := if r = 1 then vdel venn.removed str else vset venn.removed str (r - 1)
      { venn with
          removed := removed',
          intersection := vset venn.intersection str ((vget venn.intersection str).getD 0 + 1) }
    else
      { venn with added := vset venn.added str ((vget venn.added str).getD 0 + 1) }

/-- The venn engine end to end: stream every old row through the parser with
`num = 1`, then every new row with `num = 2`, starting from the empty venn
object. -/
def vennRun (oldRows newRows : List Value) : Venn :=
  let afterOld := oldRows.foldl (vennParserStep 1) Venn.empty
  newRows.foldl (vennParserStep 2) afterOld

/-- Numeric value of a lowercase hexadecimal digit character. -/
def hexVal (c : Char) : Option Nat :=
  if '0' ≤ c ∧ c ≤ '9' then some (c.toNat - 48)
  else if 'a' ≤ c ∧ c ≤ 'f' then some (c.toNat - 87)
  else none

/-- Inverse of the two-character escapes emitted by `escapeChar`. -/
def unescapeChar : Char → Option Char
  | '"' => some '"'
  | '\\' => some '\\'
  | 'b' => some '\x08'
  | 't' => some '\x09'
  | 'n' => some '\x0a'
  | 'f' => some '\x0c'
  | 'r' => some '\x0d'
  | _ => none

/-- Read a decimal natural number: the longest digit prefix, rejecting an
empty one. -/
def parseNat (cs : List Char) : Option (Nat × List Char) :=
  let digs := cs.takeWhile Char.isDigit
  if digs.isEmpty then none
  else some (digs.foldl (fun a c => a * 10 + (c.toNat - 48)) 0, cs.dropWhile Char.isDigit)

/-- Read a JSON string body up to and past its closing quote, undoing the
escapes of `escapeChars`. -/
def parseStrBody : List Char → Option (List Char × List Char)
  | [] => none
  | c :: rest =>
    if c = '"' then some ([], rest)
    else if c = '\\' then
      match rest with
      | 'u' :: h1 :: h2 :: h3 :: h4 :: rest2 =>
        match hexVal h1, hexVal h2, hexVal h3, hexVal h4 with
        | some a, some b, some c', some d =>
          match parseStrBody rest2 with
          | some (s, r) => some (Char.ofNat (((a * 16 + b) * 16 + c') * 16 + d) :: s, r)
          | none => none
        | _, _, _, _ => none
      | e :: rest2 =>
        match unescapeChar e with
        | some u =>
          match parseStrBody rest2 with
          | some (s, r) => some (u :: s, r)
          | none => none
        | none => none
      | [] => none
    else
      match parseStrBody rest with
      | some (s, r) => some (c :: s, r)
      | none => none

mutual

/-- Read one JSON value.  The fuel only bounds the nesting recursion; with
enough fuel this parser is a left inverse of `serialize` on well-formed
values (proved below), which yields injectivity of the serializer. -/
def parseVal : Nat → List Char → Option (Value × List Char)
  | 0, _ => none
  | fuel + 1, cs =>
    if cs.take 4 = ['n', 'u', 'l', 'l'] then some (.vnull, cs.drop 4)
    else if cs.take 4 = ['t', 'r', 'u', 'e'] then some (.vbool true, cs.drop 4)
    else if cs.take 5 = ['f', 'a', 'l', 's', 'e'] then some (.vbool false, cs.drop 5)
    else if cs.head? = some '"' then
      match parseStrBody (cs.drop 1) with
      | some (str, rest) => some (.vstr (String.mk str), rest)
      | none => none
    else if cs.head? = some '[' then
      match parseElems fuel (cs.drop 1) with
      | some (es, rest) => some (.varr es, rest)
      | none => none
    else if cs.head? = some '\x7b' then
      match parseFields fuel (cs.drop 1) with
      | some (fs, rest) => some (.vobj fs, rest)
      | none => none
    else if cs.head? = some '-' then
      match parseNat (cs.drop 1) with
      | some (n, rest) => some (.vint (-(n : Int)), rest)
      | none => none
    else if (cs.head?.map Char.isDigit).getD false then
      match parseNat cs with
      | some (n, rest) => some (.vint (n : Int), rest)
      | none => none
    else none

/-- Read the elements of an array after its opening bracket. -/
def parseElems : Nat → List Char → Option (List Value × List Char)
  | 0, _ => none
  | fuel + 1, cs =>
    if cs.head? = some ']' then some ([], cs.drop 1)
    else
      match parseVal fuel cs with
      | some (v, rest) =>
        match parseElemsRest fuel rest with
        | some (vs, rest') => some (v :: vs, rest')
        | none => none
      | none => none

/-- Read the remaining elements of an array: a closing bracket, or a comma
and a further element. -/
def parseElemsRest : Nat → List Char → Option (List Value × List Char)
  | 0, _ => none
  | fuel + 1, cs =>
    if cs.head? = some ']' then some ([], cs.drop 1)
    else if cs.head? = some ',' then
      match parseVal fuel (cs.drop 1) with
      | some (v, rest) =>
        match parseElemsRest fuel rest with
        | some (vs, rest') => some (v :: vs, rest')
        | none => none
      | none => none
    else none

/-- Read one `"key":value` field of an object. -/
def parseField : Nat → List Char → Option ((String × Value) × List Char)
  | 0, _ => none
  | fuel + 1, cs =>
    if cs.head? = some '"' then
      match parseStrBody (cs.drop 1) with
      | some (k, rest) =>
        if rest.head? = some ':' then
          match parseVal fuel (rest.drop 1) with
          | some (v, rest') => some ((String.mk k, v), rest')
          | none => none
        else none
      | none => none
    else none

/-- Read the fields of an object after its opening brace. -/
def parseFields : Nat → List Char → Option (List (String × Value) × List Char)
  | 0, _ => none
  | fuel + 1, cs =>
    if cs.head? = some '\x7d' then some ([], cs.drop 1)
    else
      match parseField fuel cs with
      | some (kv, rest) =>
        match parseFieldsRest fuel rest with
        | some (fs, rest') => some (kv :: fs, rest')
        | none => none
      | none => none

/-- Read the remaining fields of an object: a closing brace, or a comma and
a further field. -/
def parseFieldsRest : Nat → List Char → Option (List (String × Value) × List Char)
  | 0, _ => none
  | fuel + 1, cs =>
    if cs.head? = some '\x7d' then some ([], cs.drop 1)
    else if cs.head? = some ',' then
      match parseField fuel (cs.drop 1) with
      | some (kv, rest) =>
        match parseFieldsRest fuel rest with
        | some (fs, rest') => some (kv :: fs, rest')
        | none => none
      | none => none
    else none

end

/-- The ids of the entries classified from the old side of the walk:
`removed`, `changed` and `unchanged`. -/
def oldSideIds (r : DiffResult) : List (Option (List String)) :=
  (r.removed ++ r.changed ++ r.unchanged).map DiffEntry.id

/-- The ids of the entries classified from the new side of the walk:
`added`, `changed` and `unchanged`. -/
def newSideIds (r : DiffResult) : List (Option (List String)) :=
  (r.added ++ r.changed ++ r.unchanged).map DiffEntry.id

/-- The number of rows of a sequence whose canonical string is `e`. -/
def countCanon (e : String) (rows : List Value) : Nat :=
  rows.countP fun r => stableStringify r == e

/-- Every entry present in the three venn count maps carries a strictly
positive count. -/
def allPositiveB (v : Venn) : Bool :=
  (v.removed ++ v.added ++ v.intersection).all fun kv => decide (0 < kv.2)

/-- The keys of an object's field list are pairwise distinct. -/
def nodupKeysB : List (String × Value) → Bool
  | [] => true
  | (k, _) :: fs => !(fs.any fun kv => kv.1 == k) && nodupKeysB fs

mutual

/-- A well-formed record in the sense of the specification's data model: no
`undefined` anywhere, and object keys unique at every nesting depth. -/
def wellFormed : Value → Bool
  | .vnull => true
  | .vundef => false
  | .vbool _ => true
  | .vint _ => true
  | .vstr _ => true
  | .varr es => wellFormedList es
  | .vobj fs => nodupKeysB fs && wellFormedFields fs

/-- `wellFormed` over the elements of an array. -/
def wellFormedList : List Value → Bool
  | [] => true
  | v :: vs => wellFormed v && wellFormedList vs

/-- `wellFormed` over the values of a field list. -/
def wellFormedFields : List (String × Value) → Bool
  | [] => true
  | (_, v) :: fs => wellFormed v && wellFormedFields fs

end

/-- Deep structural equality of two records, irrespective of field insertion
order at every nesting depth: arrays must agree element by element, objects
must carry the same key set with structurally equal values key by key. -/
inductive StructEq : Value → Value → Prop where
  | vnull : StructEq .vnull .vnull
  | vundef : StructEq .vundef .vundef
  | vbool (b : Bool) : StructEq (.vbool b) (.vbool b)
  | vint (n : Int) : StructEq (.vint n) (.vint n)
  | vstr (s : String) : StructEq (.vstr s) (.vstr s)
  | varr {as bs : List Value} :
      List.Forall₂ StructEq as bs → StructEq (.varr as) (.varr bs)
  | vobj {as bs : List (String × Value)} :
      (∀ k : String, (∃ v, (k, v) ∈ as) ↔ (∃ w, (k, w) ∈ bs)) →
      (∀ (k : String) (v w : Value), (k, v) ∈ as → (k, w) ∈ bs → StructEq v w) →
      StructEq (.vobj as) (.vobj bs)

/-! ### Basic lemmas -/

mutual

theorem Value.beq_iff_eq : ∀ a b : Value, Value.beq a b = true ↔ a = b
  | .vnull, b => by cases b <;> simp [Value.beq]
  | .vundef, b => by cases b <;> simp [Value.beq]
  | .vbool a, b => by cases b <;> simp [Value.beq]
  | .vint a, b => by cases b <;> simp [Value.beq]
  | .vstr a, b => by cases b <;> simp [Value.beq]
  | .varr as, b => by
      cases b <;> simp [Value.beq]
      exact Value.beqList_iff_eq as _
  | .vobj as, b => by
      cases b <;> simp [Value.beq]
      exact Value.beqFields_iff_eq as _

theorem Value.beqList_iff_eq : ∀ as bs : List Value, Value.beqList as bs = true ↔ as = bs
  | [], bs => by cases bs <;> simp [Value.beqList]
  | a :: as, [] => by simp [Value.beqList]
  | a :: as, b :: bs => by
      simp [Value.beqList, Value.beq_iff_eq a b, Value.beqList_iff_eq as bs]

theorem Value.beqFields_iff_eq :
    ∀ as bs : List (String × Value), Value.beqFields as bs = true ↔ as = bs
  | [], bs => by cases bs <;> simp [Value.beqFields]
  | a :: as, [] => by simp [Value.beqFields]
  | (k, v) :: as, (l, w) :: bs => by
      simp [Value.beqFields, Value.beq_iff_eq v w, Value.beqFields_iff_eq as bs,
        and_assoc]

end

theorem normalizeList_eq_map : ∀ es : List Value, normalizeList es = es.map normalize
  | [] => rfl
  | v :: vs => by simp [normalizeList, normalizeList_eq_map vs]

theorem normalizeFields_eq_map :
    ∀ fs : List (String × Value),
      normalizeFields fs = fs.map fun kv => (kv.1, normalize kv.2)
  | [] => rfl
  | (k, v) :: fs => by simp [normalizeFields, normalizeFields_eq_map fs]

theorem normalize_varr (es : List Value) :
    normalize (.varr es) = .varr (es.map normalize) := by
  rw [normalize, normalizeList_eq_map]

theorem normalize_vobj (fs : List (String × Value)) :
    normalize (.vobj fs) = .vobj (sortByKey (fs.map fun kv => (kv.1, normalize kv.2))) := by
  rw [normalize, normalizeFields_eq_map]

theorem keyAt_lt_of_ne_none {arr : List Value} {key : List String} {i : Nat}
    (h : keyAt arr key i ≠ none) : i < arr.length := by
  by_contra hge
  rcases Nat.lt_or_ge i arr.length with hlt | hge'
  · exact hge hlt
  unfold keyAt at h
  rcases Nat.eq_or_lt_of_le hge' with heq | hgt
  · simp [← heq] at h
  · rw [if_neg (by omega), List.getD_eq_default _ _ (by omega)] at h
    simp [constructKey, Value.isNullish] at h

theorem lexCompare_none_left (b : Option (List String)) : 0 ≤ lexCompare none b := by
  cases b <;> simp [lexCompare]

theorem lexCompare_none_right (a : Option (List String)) : lexCompare a none ≤ 0 := by
  cases a <;> simp [lexCompare]

/-! ### Properties of the key comparator -/

theorem charListLt_irrefl : ∀ as : List Char, charListLt as as = false
  | [] => rfl
  | a :: as => by simp [charListLt, lt_irrefl, charListLt_irrefl as]

theorem charListLt_asymm : ∀ as bs : List Char,
    charListLt as bs = true → charListLt bs as = false
  | [], [] => by simp [charListLt]
  | [], b :: bs => by simp [charListLt]
  | a :: as, [] => by simp [charListLt]
  | a :: as, b :: bs => by
      intro h
      rcases lt_trichotomy a b with hab | hab | hab
      · simp [charListLt, lt_asymm hab, hab]
      · subst hab
        simp [charListLt, lt_irrefl] at h ⊢
        exact charListLt_asymm as bs h
      · simp [charListLt, lt_asymm hab, hab] at h

theorem charListLt_trans : ∀ as bs cs : List Char,
    charListLt as bs = true → charListLt bs cs = true → charListLt as cs = true
  | [], bs, cs => by
      intro h1 h2
      cases bs with
      | nil => simp [charListLt] at h1
      | cons b bs =>
        cases cs with
        | nil => simp [charListLt] at h2
        | cons c cs => simp [charListLt]
  | a :: as, [], cs => by
      intro h1 _
      simp [charListLt] at h1
  | a :: as, b :: bs, [] => by
      intro _ h2
      simp [charListLt] at h2
  | a :: as, b :: bs, c :: cs => by
      intro h1 h2
      rcases lt_trichotomy a b with hab | hab | hab
      · rcases lt_trichotomy b c with hbc | hbc | hbc
        · simp [charListLt, lt_trans hab hbc]
        · subst hbc
          simp [charListLt, hab]
        · simp [charListLt, lt_asymm hbc, hbc] at h2
      · subst hab
        rcases lt_trichotomy a c with hac | hac | hac
        · simp [charListLt, hac]
        · subst hac
          simp [charListLt, lt_irrefl] at h1 h2 ⊢
          exact charListLt_trans as bs cs h1 h2
        · simp [charListLt, lt_asymm hac, hac] at h2
      · simp [charListLt, lt_asymm hab, hab] at h1

theorem charListLt_eq_of_not : ∀ as bs : List Char,
    charListLt as bs = false → charListLt bs as = false → as = bs
  | [], [] => by
      intro _ _
      rfl
  | [], b :: bs => by
      intro h1 _
      simp [charListLt] at h1
  | a :: as, [] => by
      intro _ h2
      simp [charListLt] at h2
  | a :: as, b :: bs => by
      intro h1 h2
      rcases lt_trichotomy a b with hab | hab | hab
      · simp [charListLt, hab] at h1
      · subst hab
        simp [charListLt, lt_irrefl] at h1 h2
        rw [charListLt_eq_of_not as bs h1 h2]
      · simp [charListLt, hab] at h2

theorem strLt_irrefl (a : String) : strLt a a = false := charListLt_irrefl _

theorem strLt_asymm {a b : String} (h : strLt a b = true) : strLt b a = false :=
  charListLt_asymm _ _ h

theorem strLt_trans {a b c : String} (h1 : strLt a b = true) (h2 : strLt b c = true) :
    strLt a c = true :=
  charListLt_trans _ _ _ h1 h2

theorem strLt_eq_of_not {a b : String} (h1 : strLt a b = false)
    (h2 : strLt b a = false) : a = b := by
  have h := charListLt_eq_of_not _ _ h1 h2
  cases a
  cases b
  exact congrArg String.mk h

theorem strLt_trichotomy (a b : String) :
    strLt a b = true ∨ a = b ∨ strLt b a = true := by
  cases h1 : strLt a b with
  | true => exact Or.inl rfl
  | false =>
    cases h2 : strLt b a with
    | true => exact Or.inr (Or.inr rfl)
    | false => exact Or.inr (Or.inl (strLt_eq_of_not h1 h2))

theorem strLt_ne {a b : String} (h : strLt a b = true) : a ≠ b := by
  intro heq
  subst heq
  rw [strLt_irrefl] at h
  exact Bool.noConfusion h

theorem lexCompareAux_self : ∀ as : List String, lexCompareAux as as = 0
  | [] => rfl
  | a :: as => by
      simp [lexCompareAux, strLt_irrefl, lexCompareAux_self as]

theorem lexCompareAux_eq_zero_iff :
    ∀ as bs : List String, lexCompareAux as bs = 0 ↔ as = bs
  | [], [] => by simp [lexCompareAux]
  | [], b :: bs => by
      simp [lexCompareAux]
      omega
  | a :: as, [] => by
      simp [lexCompareAux]
      omega
  | a :: as, b :: bs => by
      rcases strLt_trichotomy a b with h | h | h
      · simp [lexCompareAux, h, strLt_ne h]
      · subst h
        simp [lexCompareAux, strLt_irrefl, lexCompareAux_eq_zero_iff as bs]
      · simp [lexCompareAux, h, strLt_asymm h, Ne.symm (strLt_ne h)]

theorem lexCompareAux_neg :
    ∀ as bs : List String, lexCompareAux as bs = -lexCompareAux bs as
  | [], [] => by simp [lexCompareAux]
  | [], b :: bs => by simp [lexCompareAux]
  | a :: as, [] => by simp [lexCompareAux]
  | a :: as, b :: bs => by
      rcases strLt_trichotomy a b with h | h | h
      · simp [lexCompareAux, h, strLt_asymm h]
      · subst h
        simp [lexCompareAux, strLt_irrefl, lexCompareAux_neg as bs]
      · simp [lexCompareAux, h, strLt_asymm h]

theorem lexCompareAux_trans :
    ∀ as bs cs : List String, lexCompareAux as bs ≤ 0 → lexCompareAux bs cs ≤ 0 →
      lexCompareAux as cs ≤ 0
  | [], bs, cs => by
      intro _ _
      simp [lexCompareAux]
  | a :: as, [], cs => by
      intro h1 _
      simp [lexCompareAux] at h1
      omega
  | a :: as, b :: bs, [] => by
      intro _ h2
      simp [lexCompareAux] at h2
      omega
  | a :: as, b :: bs, c :: cs => by
      intro h1 h2
      rcases strLt_trichotomy a b with hab | hab | hab
      · rcases strLt_trichotomy b c with hbc | hbc | hbc
        · simp [lexCompareAux, strLt_trans hab hbc]
        · subst hbc
          simp [lexCompareAux, hab]
        · simp [lexCompareAux, strLt_asymm hbc, hbc] at h2
      · subst hab
        rcases strLt_trichotomy a c with hac | hac | hac
        · simp [lexCompareAux, hac]
        · subst hac
          simp [lexCompareAux, strLt_irrefl] at h1 h2 ⊢
          exact lexCompareAux_trans as bs cs h1 h2
        · simp [lexCompareAux, strLt_asymm hac, hac] at h2
      · simp [lexCompareAux, strLt_asymm hab, hab] at h1

theorem lexCompare_self : ∀ a : Option (List String), lexCompare a a = 0
  | none => rfl
  | some as => lexCompareAux_self as

theorem lexCompare_eq_zero_iff :
    ∀ a b : Option (List String), lexCompare a b = 0 ↔ a = b
  | none, none => by simp [lexCompare]
  | none, some bs => by simp [show lexCompare none (some bs) = 1 from rfl]
  | some as, none => by simp [show lexCompare (some as) none = -1 from rfl]
  | some as, some bs => by simp [lexCompare, lexCompareAux_eq_zero_iff as bs]

theorem lexCompare_neg :
    ∀ a b : Option (List String), lexCompare a b = -lexCompare b a
  | none, none => by simp [lexCompare]
  | none, some bs => rfl
  | some as, none => rfl
  | some as, some bs => lexCompareAux_neg as bs

theorem lexCompare_trans :
    ∀ a b c : Option (List String), lexCompare a b ≤ 0 → lexCompare b c ≤ 0 →
      lexCompare a c ≤ 0
  | none, none, c => by
      intro _ h2
      exact h2
  | none, some bs, c => by
      intro h1 _
      simp [lexCompare] at h1
  | some as, b, none => by
      intro _ _
      exact lexCompare_none_right (some as)
  | some as, none, some cs => by
      intro _ h2
      simp [show lexCompare none (some cs) = 1 from rfl] at h2
  | some as, some bs, some cs => lexCompareAux_trans as bs cs

theorem lexCompare_total (a b : Option (List String)) :
    lexCompare a b ≤ 0 ∨ lexCompare b a ≤ 0 := by
  rw [lexCompare_neg]
  omega

theorem lexCompareAux_append_lt :
    ∀ pre xs ys : List String, ∀ x y : String, strLt x y = true →
      lexCompareAux (pre ++ x :: xs) (pre ++ y :: ys) = -1
  | [], xs, ys, x, y, h => by simp [lexCompareAux, h]
  | p :: pre, xs, ys, x, y, h => by
      simp [lexCompareAux, strLt_irrefl, lexCompareAux_append_lt pre xs ys x y h]

theorem lexCompareAux_extend :
    ∀ pre rest : List String, lexCompareAux pre (pre ++ rest) = -(rest.length : Int)
  | [], rest => by simp [lexCompareAux]
  | p :: pre, rest => by
      simp [lexCompareAux, strLt_irrefl, lexCompareAux_extend pre rest]

/-! ### C3: the key comparator is a total order -/

/-- C3: `lexCompare` is a total order on composite keys plus null: nulls
compare equal to each other and sort strictly after every non-null key;
non-null keys compare element-wise by string ordering up to the shorter
length with the first mismatching element deciding the sign, a strict prefix
sorting first, and equal lengths with equal elements comparing equal; the
induced relation is reflexive, antisymmetric, transitive and total. -/
theorem lexCompare_total_order :
    lexCompare none none = 0 ∧
    (∀ a : List String, 0 < lexCompare none (some a) ∧ lexCompare (some a) none < 0) ∧
    (∀ (pre xs ys : List String) (x y : String), strLt x y = true →
      lexCompare (some (pre ++ x :: xs)) (some (pre ++ y :: ys)) < 0 ∧
      0 < lexCompare (some (pre ++ y :: ys)) (some (pre ++ x :: xs))) ∧
    (∀ pre rest : List String, rest ≠ [] →
      lexCompare (some pre) (some (pre ++ rest)) < 0 ∧
      0 < lexCompare (some (pre ++ rest)) (some pre)) ∧
    (∀ as bs : List String, lexCompare (some as) (some bs) = 0 ↔ as = bs) ∧
    (∀ a, lexCompare a a = 0) ∧
    (∀ a b, lexCompare a b ≤ 0 → lexCompare b a ≤ 0 → a = b) ∧
    (∀ a b c, lexCompare a b ≤ 0 → lexCompare b c ≤ 0 → lexCompare a c ≤ 0) ∧
    (∀ a b, lexCompare a b ≤ 0 ∨ lexCompare b a ≤ 0) := by
  refine ⟨rfl, fun a => ⟨by simp [lexCompare], by simp [lexCompare]⟩, ?_, ?_, ?_, ?_, ?_, ?_, ?_⟩
  · intro pre xs ys x y h
    constructor
    · show lexCompareAux _ _ < 0
      rw [lexCompareAux_append_lt pre xs ys x y h]
      omega
    · show 0 < lexCompareAux _ _
      rw [lexCompareAux_neg, lexCompareAux_append_lt pre xs ys x y h]
      omega
  · intro pre rest h
    have hlen : 0 < rest.length := List.length_pos.mpr h
    constructor
    · show lexCompareAux _ _ < 0
      rw [lexCompareAux_extend]
      omega
    · show 0 < lexCompareAux _ _
      rw [lexCompareAux_neg, lexCompareAux_extend]
      omega
  · exact fun as bs => lexCompareAux_eq_zero_iff as bs
  · exact lexCompare_self
  · intro a b h1 h2
    rw [lexCompare_neg] at h2
    have : lexCompare a b = 0 := by omega
    exact (lexCompare_eq_zero_iff a b).mp this
  · exact lexCompare_trans
  · exact lexCompare_total

theorem lexCompare_total_order_witness :
    strLt "a" "b" = true ∧
    lexCompare (some (["k"] ++ "a" :: [])) (some (["k"] ++ "b" :: [])) < 0 ∧
    (["x"] : List String) ≠ [] ∧
    lexCompare (some ["k"]) (some (["k"] ++ ["x"])) < 0 :=
  ⟨by decide,
   (lexCompare_total_order.2.2.1 ["k"] [] [] "a" "b" (by decide)).1,
   by decide,
   (lexCompare_total_order.2.2.2.1 ["k"] ["x"] (by decide)).1⟩

/-! ### C4: composite key construction -/

/-- C4: `constructKey` returns `null` exactly when the row is nullish, and
otherwise the ordered list of the string forms of `row[field]` for the key
fields in list order; a field missing from the record contributes the fixed
sentinel string "undefined" instead of raising; being a pure function it has
no effect on its arguments. -/
theorem constructKey_spec (row : Value) (fields : List String) (_hne : fields ≠ []) :
    (row.isNullish = true → constructKey row fields = none) ∧
    (row.isNullish = false →
      constructKey row fields = some (fields.map fun f => jsString (getField row f))) ∧
    (∀ (fs : List (String × Value)) (f : String), row = .vobj fs →
      (fs.lookup f).isNone = true → jsString (getField row f) = "undefined") := by
  refine ⟨fun h => ?_, fun h => ?_, fun fs f hrow hmiss => ?_⟩
  · simp [constructKey, h]
  · simp [constructKey, h]
  · subst hrow
    rw [Option.isNone_iff_eq_none] at hmiss
    simp [getField, hmiss, jsString]

theorem constructKey_spec_witness :
    (["b", "a"] : List String) ≠ [] ∧
    constructKey (.vobj [("a", .vint 1)]) ["b", "a"] = some ["undefined", "1"] ∧
    jsString (getField (.vobj [("a", .vint 1)]) "b") = "undefined" := by
  have h := constructKey_spec (.vobj [("a", .vint 1)]) ["b", "a"] (by decide)
  exact ⟨by decide, h.2.1 rfl, h.2.2 [("a", .vint 1)] "b" rfl rfl⟩

/-! ### C1: classification of each merge-walk step -/

/-- C1: every step of the merge walk classifies as specified: a strictly
smaller old key pushes `{id: keyOld, data: oldRecords[i]}` onto `removed`
advancing `i` only; a strictly smaller new key pushes
`{id: keyNew, data: newRecords[j]}` onto `added` advancing `j` only; equal
non-null keys compute the field-level diff and push `{id: keyNew, data:
diff}` onto `changed` when the diff is non-empty under the emptiness
predicate, else `{id: keyNew, data: newRecords[j]}` onto `unchanged`,
advancing both cursors. -/
theorem mergeLoop_step (fuel : Nat) (key : List String) (arr1 arr2 : List Value)
    (i j : Nat) (out : DiffResult) (_hkey : key ≠ [])
    (hc : i < arr1.length ∨ j < arr2.length) :
    (lexCompare (keyAt arr1 key i) (keyAt arr2 key j) < 0 →
      mergeLoop (fuel + 1) key arr1 arr2 i j out =
        mergeLoop fuel key arr1 arr2 (i + 1) j
          { out with removed := out.removed ++ [⟨keyAt arr1 key i, arr1.getD i .vundef⟩] }) ∧
    (0 < lexCompare (keyAt arr1 key i) (keyAt arr2 key j) →
      mergeLoop (fuel + 1) key arr1 arr2 i j out =
        mergeLoop fuel key arr1 arr2 i (j + 1)
          { out with added := out.added ++ [⟨keyAt arr2 key j, arr2.getD j .vundef⟩] }) ∧
    (lexCompare (keyAt arr1 key i) (keyAt arr2 key j) = 0 →
      keyAt arr1 key i ≠ none → keyAt arr2 key j ≠ none →
      (diffIsEmpty (detailedDiff (arr1.getD i .vundef) (arr2.getD j .vundef)) = false →
        mergeLoop (fuel + 1) key arr1 arr2 i j out =
          mergeLoop fuel key arr1 arr2 (i + 1) (j + 1)
            { out with changed := out.changed ++
                [⟨keyAt arr2 key j, detailedDiff (arr1.getD i .vundef) (arr2.getD j .vundef)⟩] }) ∧
      (diffIsEmpty (detailedDiff (arr1.getD i .vundef) (arr2.getD j .vundef)) = true →
        mergeLoop (fuel + 1) key arr1 arr2 i j out =
          mergeLoop fuel key arr1 arr2 (i + 1) (j + 1)
            { out with unchanged := out.unchanged ++ [⟨keyAt arr2 key j, arr2.getD j .vundef⟩] })) := by
  refine ⟨fun h0 => ?_, fun h1 => ?_, fun h0 _ _ => ⟨fun hne => ?_, fun hemp => ?_⟩⟩
  · rw [mergeLoop, if_pos hc, if_pos h0]
  · rw [mergeLoop, if_pos hc, if_neg (by omega), if_pos h1]
  · rw [mergeLoop, if_pos hc, if_neg (by omega), if_neg (by omega), if_neg (by simpa using hne)]
  · rw [mergeLoop, if_pos hc, if_neg (by omega), if_neg (by omega), if_pos (by simpa using hemp)]

theorem mergeLoop_step_witness :
    mergeLoop 2 ["id"] [.vobj [("id", .vint 1)]] [.vobj [("id", .vint 2)]] 0 0 .empty =
      mergeLoop 1 ["id"] [.vobj [("id", .vint 1)]] [.vobj [("id", .vint 2)]] 1 0
        { DiffResult.empty with removed :=
            DiffResult.empty.removed ++
              [⟨keyAt [.vobj [("id", .vint 1)]] ["id"] 0,
                ([.vobj [("id", .vint 1)]] : List Value).getD 0 .vundef⟩] } :=
  (mergeLoop_step 1 ["id"] [.vobj [("id", .vint 1)]] [.vobj [("id", .vint 2)]] 0 0
    .empty (by decide) (by decide)).1 (by decide)

/-! ### C10: totality of the merge walk -/

/-- C10: the merge loop advances at least one cursor on every iteration, so
the remaining-cursor measure strictly decreases and the walk terminates: for
every input (empty sequences and null records included) and any fuel
exceeding the measure the loop returns a result rather than exhausting, and
in particular the `keyDiffHelper` entry call always returns a `DiffResult`
without any data-level failure. -/
theorem mergeLoop_terminates :
    (∀ (fuel : Nat) (key : List String) (arr1 arr2 : List Value) (i j : Nat)
        (out : DiffResult),
      (arr1.length - i) + (arr2.length - j) < fuel →
      (mergeLoop fuel key arr1 arr2 i j out).isSome = true) ∧
    (∀ (arr1 arr2 : List Value) (key : List String),
      (mergeLoop ((List.insertionSort (rowLE key) arr1).length +
          (List.insertionSort (rowLE key) arr2).length + 1) key
        (List.insertionSort (rowLE key) arr1) (List.insertionSort (rowLE key) arr2)
        0 0 .empty).isSome = true) := by
  have main : ∀ (fuel : Nat) (key : List String) (arr1 arr2 : List Value) (i j : Nat)
      (out : DiffResult),
      (arr1.length - i) + (arr2.length - j) < fuel →
      (mergeLoop fuel key arr1 arr2 i j out).isSome = true := by
    intro fuel
    induction fuel with
    | zero =>
      intro key arr1 arr2 i j out h
      omega
    | succ fuel ih =>
      intro key arr1 arr2 i j out h
      rw [mergeLoop]
      by_cases hc : i < arr1.length ∨ j < arr2.length
      · rw [if_pos hc]
        rcases lt_trichotomy (lexCompare (keyAt arr1 key i) (keyAt arr2 key j)) 0
          with h0 | h0 | h0
        · rw [if_pos h0]
          have hne : keyAt arr1 key i ≠ none := by
            intro hn
            rw [hn] at h0
            have := lexCompare_none_left (keyAt arr2 key j)
            omega
          have hlt := keyAt_lt_of_ne_none hne
          exact ih key arr1 arr2 (i + 1) j _ (by omega)
        · rw [if_neg (by omega), if_neg (by omega)]
          rcases hc with hci | hcj
          · cases hif : diffIsEmpty (detailedDiff (arr1.getD i .vundef) (arr2.getD j .vundef))
            · rw [if_neg (by simp)]
              exact ih key arr1 arr2 (i + 1) (j + 1) _ (by omega)
            · rw [if_pos rfl]
              exact ih key arr1 arr2 (i + 1) (j + 1) _ (by omega)
          · cases hif : diffIsEmpty (detailedDiff (arr1.getD i .vundef) (arr2.getD j .vundef))
            · rw [if_neg (by simp)]
              exact ih key arr1 arr2 (i + 1) (j + 1) _ (by omega)
            · rw [if_pos rfl]
              exact ih key arr1 arr2 (i + 1) (j + 1) _ (by omega)
        · rw [if_neg (by omega), if_pos h0]
          have hne : keyAt arr2 key j ≠ none := by
            intro hn
            rw [hn] at h0
            have := lexCompare_none_right (keyAt arr1 key i)
            omega
          have hlt := keyAt_lt_of_ne_none hne
          exact ih key arr1 arr2 i (j + 1) _ (by omega)
      · rw [if_neg hc]
        rfl
  exact ⟨main, fun arr1 arr2 key => main _ key _ _ 0 0 .empty (by omega)⟩

theorem mergeLoop_terminates_witness :
    (([Value.vnull] : List Value).length - 0) + (([] : List Value).length - 0) < 2 ∧
    (mergeLoop 2 ["id"] [Value.vnull] [] 0 0 .empty).isSome = true :=
  ⟨by decide, mergeLoop_terminates.1 2 ["id"] [Value.vnull] [] 0 0 .empty (by decide)⟩

/-! ### C7: the key diff sorts the caller's arrays in place -/

/-- C7 counterexample: `keyDiffHelper` sorts the caller's arrays in place
(`Array.prototype.sort`), so after the call with an unsorted `arr1` the
caller's array is no longer in the order it was passed in. -/
theorem keyDiffHelperPost_mutates_counterexample :
    ¬ ((keyDiffHelperPost [.vobj [("id", .vstr "b")], .vobj [("id", .vstr "a")]] []
          ["id"]).2.1 =
        [.vobj [("id", .vstr "b")], .vobj [("id", .vstr "a")]]) := by
  intro h
  have heval : (keyDiffHelperPost [.vobj [("id", .vstr "b")], .vobj [("id", .vstr "a")]] []
      ["id"]).2.1 = [.vobj [("id", .vstr "a")], .vobj [("id", .vstr "b")]] := rfl
  rw [heval] at h
  have h1 : Value.vobj [("id", Value.vstr "a")] = Value.vobj [("id", Value.vstr "b")] :=
    (List.cons_eq_cons.mp h).1
  have hb := (Value.beq_iff_eq (Value.vobj [("id", Value.vstr "a")])
    (Value.vobj [("id", Value.vstr "b")])).mpr h1
  exact absurd hb (by decide)

/-- C7 amended: after `keyDiffHelper` returns, the caller's two arrays hold
key-sorted permutations of the records passed in (the very same record
values, only reordered by the in-place sort); no record is mutated. -/
theorem keyDiffHelperPost_perm (arr1 arr2 : List Value) (key : List String) :
    (keyDiffHelperPost arr1 arr2 key).2.1.Perm arr1 ∧
    (keyDiffHelperPost arr1 arr2 key).2.2.Perm arr2 ∧
    (keyDiffHelperPost arr1 arr2 key).2.1.Sorted (rowLE key) ∧
    (keyDiffHelperPost arr1 arr2 key).2.2.Sorted (rowLE key) := by
  haveI : IsTotal Value (rowLE key) := ⟨fun _ _ => lexCompare_total _ _⟩
  haveI : IsTrans Value (rowLE key) := ⟨fun _ _ _ h1 h2 => lexCompare_trans _ _ _ h1 h2⟩
  exact ⟨List.perm_insertionSort (rowLE key) arr1, List.perm_insertionSort (rowLE key) arr2,
    List.sorted_insertionSort (rowLE key) arr1, List.sorted_insertionSort (rowLE key) arr2⟩

/-! ### Conservation of ids along the merge walk -/

theorem keyAt_of_lt {arr : List Value} {key : List String} {i : Nat}
    (h : i < arr.length) :
    keyAt arr key i = constructKey (arr.getD i .vundef) key := by
  rw [keyAt, if_neg (by omega)]

theorem getD_mem {arr : List Value} {i : Nat} (h : i < arr.length) :
    arr.getD i .vundef ∈ arr := by
  simp only [List.getD_eq_getElem?_getD, List.getElem?_eq_getElem h, Option.getD_some]
  exact List.getElem_mem h

theorem getD_eq_getElem_of_lt {arr : List Value} {i : Nat} (h : i < arr.length) :
    arr.getD i .vundef = arr[i] := by
  simp only [List.getD_eq_getElem?_getD, List.getElem?_eq_getElem h, Option.getD_some]

theorem keyAt_ne_none_of_lt {arr : List Value} {key : List String} {i : Nat}
    (hrows : ∀ r ∈ arr, r.isNullish = false) (h : i < arr.length) :
    keyAt arr key i ≠ none := by
  rw [keyAt_of_lt h, constructKey, hrows _ (getD_mem h)]
  simp

theorem oldSideIds_removed_ms (out : DiffResult) (e : DiffEntry) :
    (↑(oldSideIds { out with removed := out.removed ++ [e] }) :
      Multiset (Option (List String))) = ↑(oldSideIds out) + {e.id} := by
  simp only [oldSideIds, List.map_append, ← Multiset.coe_add]
  simp only [List.map_cons, List.map_nil]
  rw [show (↑([e.id] : List (Option (List String))) : Multiset (Option (List String))) =
    {e.id} from rfl]
  abel

theorem oldSideIds_changed_ms (out : DiffResult) (e : DiffEntry) :
    (↑(oldSideIds { out with changed := out.changed ++ [e] }) :
      Multiset (Option (List String))) = ↑(oldSideIds out) + {e.id} := by
  simp only [oldSideIds, List.map_append, ← Multiset.coe_add]
  simp only [List.map_cons, List.map_nil]
  rw [show (↑([e.id] : List (Option (List String))) : Multiset (Option (List String))) =
    {e.id} from rfl]
  abel

theorem oldSideIds_unchanged_ms (out : DiffResult) (e : DiffEntry) :
    (↑(oldSideIds { out with unchanged := out.unchanged ++ [e] }) :
      Multiset (Option (List String))) = ↑(oldSideIds out) + {e.id} := by
  simp only [oldSideIds, List.map_append, ← Multiset.coe_add]
  simp only [List.map_cons, List.map_nil]
  rw [show (↑([e.id] : List (Option (List String))) : Multiset (Option (List String))) =
    {e.id} from rfl]
  abel

theorem oldSideIds_added_eq (out : DiffResult) (e : DiffEntry) :
    oldSideIds { out with added := out.added ++ [e] } = oldSideIds out := rfl

theorem newSideIds_added_ms (out : DiffResult) (e : DiffEntry) :
    (↑(newSideIds { out with added := out.added ++ [e] }) :
      Multiset (Option (List String))) = ↑(newSideIds out) + {e.id} := by
  simp only [newSideIds, List.map_append, ← Multiset.coe_add]
  simp only [List.map_cons, List.map_nil]
  rw [show (↑([e.id] : List (Option (List String))) : Multiset (Option (List String))) =
    {e.id} from rfl]
  abel

theorem newSideIds_changed_ms (out : DiffResult) (e : DiffEntry) :
    (↑(newSideIds { out with changed := out.changed ++ [e] }) :
      Multiset (Option (List String))) = ↑(newSideIds out) + {e.id} := by
  simp only [newSideIds, List.map_append, ← Multiset.coe_add]
  simp only [List.map_cons, List.map_nil]
  rw [show (↑([e.id] : List (Option (List String))) : Multiset (Option (List String))) =
    {e.id} from rfl]
  abel

theorem newSideIds_unchanged_ms (out : DiffResult) (e : DiffEntry) :
    (↑(newSideIds { out with unchanged := out.unchanged ++ [e] }) :
      Multiset (Option (List String))) = ↑(newSideIds out) + {e.id} := by
  simp only [newSideIds, List.map_append, ← Multiset.coe_add]
  simp only [List.map_cons, List.map_nil]
  rw [show (↑([e.id] : List (Option (List String))) : Multiset (Option (List String))) =
    {e.id} from rfl]
  abel

theorem newSideIds_removed_eq (out : DiffResult) (e : DiffEntry) :
    newSideIds { out with removed := out.removed ++ [e] } = newSideIds out := rfl

theorem drop_map_key_cons {arr : List Value} {key : List String} {i : Nat}
    (h : i < arr.length) :
    (↑((arr.drop i).map fun r => constructKey r key) : Multiset (Option (List String))) =
      {keyAt arr key i} + ↑((arr.drop (i + 1)).map fun r => constructKey r key) := by
  rw [List.drop_eq_getElem_cons h, List.map_cons, ← List.singleton_append,
    ← Multiset.coe_add]
  rw [keyAt_of_lt h, getD_eq_getElem_of_lt h]
  rfl

theorem mergeLoop_ids :
    ∀ (fuel : Nat) (key : List String) (arr1 arr2 : List Value) (i j : Nat)
      (out : DiffResult),
      (∀ r ∈ arr1, r.isNullish = false) → (∀ r ∈ arr2, r.isNullish = false) →
      i ≤ arr1.length → j ≤ arr2.length →
      (arr1.length - i) + (arr2.length - j) < fuel →
      ∃ res, mergeLoop fuel key arr1 arr2 i j out = some res ∧
        (↑(oldSideIds res) : Multiset (Option (List String))) =
          ↑(oldSideIds out) + ↑((arr1.drop i).map fun r => constructKey r key) ∧
        (↑(newSideIds res) : Multiset (Option (List String))) =
          ↑(newSideIds out) + ↑((arr2.drop j).map fun r => constructKey r key) := by
  intro fuel
  induction fuel with
  | zero =>
    intro key arr1 arr2 i j out _ _ _ _ h
    omega
  | succ fuel ih =>
    intro key arr1 arr2 i j out h1 h2 hi hj hfuel
    by_cases hc : i < arr1.length ∨ j < arr2.length
    · rcases lt_trichotomy (lexCompare (keyAt arr1 key i) (keyAt arr2 key j)) 0
        with h0 | h0 | h0
      · -- removed branch
        have hne : keyAt arr1 key i ≠ none := by
          intro hn
          rw [hn] at h0
          have := lexCompare_none_left (keyAt arr2 key j)
          omega
        have hlt := keyAt_lt_of_ne_none hne
        obtain ⟨res, hres, hol, hnw⟩ :=
          ih key arr1 arr2 (i + 1) j
            { out with removed := out.removed ++ [⟨keyAt arr1 key i, arr1.getD i .vundef⟩] }
            h1 h2 (by omega) hj (by omega)
        refine ⟨res, ?_, ?_, ?_⟩
        · rw [mergeLoop, if_pos hc, if_pos h0]
          exact hres
        · rw [hol, oldSideIds_removed_ms, drop_map_key_cons hlt]
          abel
        · rw [hnw, newSideIds_removed_eq]
      · -- equal branch
        have hk1 : keyAt arr1 key i ≠ none := by
          intro hn
          have heq : keyAt arr1 key i = keyAt arr2 key j :=
            (lexCompare_eq_zero_iff _ _).mp h0
          rcases hc with hci | hcj
          · exact keyAt_ne_none_of_lt h1 hci hn
          · exact keyAt_ne_none_of_lt h2 hcj (heq ▸ hn)
        have heq : keyAt arr1 key i = keyAt arr2 key j :=
          (lexCompare_eq_zero_iff _ _).mp h0
        have hk2 : keyAt arr2 key j ≠ none := heq ▸ hk1
        have hlt1 := keyAt_lt_of_ne_none hk1
        have hlt2 := keyAt_lt_of_ne_none hk2
        cases hif : diffIsEmpty (detailedDiff (arr1.getD i .vundef) (arr2.getD j .vundef))
        · obtain ⟨res, hres, hol, hnw⟩ :=
            ih key arr1 arr2 (i + 1) (j + 1)
              { out with changed := out.changed ++
                  [⟨keyAt arr2 key j,
                    detailedDiff (arr1.getD i .vundef) (arr2.getD j .vundef)⟩] }
              h1 h2 (by omega) (by omega) (by omega)
          refine ⟨res, ?_, ?_, ?_⟩
          · rw [mergeLoop, if_pos hc, if_neg (by omega), if_neg (by omega),
              if_neg (by simpa using hif)]
            exact hres
          · rw [hol, oldSideIds_changed_ms, drop_map_key_cons hlt1, ← heq]
            abel
          · rw [hnw, newSideIds_changed_ms, drop_map_key_cons hlt2]
            abel
        · obtain ⟨res, hres, hol, hnw⟩ :=
            ih key arr1 arr2 (i + 1) (j + 1)
              { out with unchanged := out.unchanged ++
                  [⟨keyAt arr2 key j, arr2.getD j .vundef⟩] }
              h1 h2 (by omega) (by omega) (by omega)
          refine ⟨res, ?_, ?_, ?_⟩
          · rw [mergeLoop, if_pos hc, if_neg (by omega), if_neg (by omega),
              if_pos (by simpa using hif)]
            exact hres
          · rw [hol, oldSideIds_unchanged_ms, drop_map_key_cons hlt1, ← heq]
            abel
          · rw [hnw, newSideIds_unchanged_ms, drop_map_key_cons hlt2]
            abel
      · -- added branch
        have hne : keyAt arr2 key j ≠ none := by
          intro hn
          rw [hn] at h0
          have := lexCompare_none_right (keyAt arr1 key i)
          omega
        have hlt := keyAt_lt_of_ne_none hne
        obtain ⟨res, hres, hol, hnw⟩ :=
          ih key arr1 arr2 i (j + 1)
            { out with added := out.added ++ [⟨keyAt arr2 key j, arr2.getD j .vundef⟩] }
            h1 h2 hi (by omega) (by omega)
        refine ⟨res, ?_, ?_, ?_⟩
        · rw [mergeLoop, if_pos hc, if_neg (by omega), if_pos h0]
          exact hres
        · rw [hol, oldSideIds_added_eq]
        · rw [hnw, newSideIds_added_ms, drop_map_key_cons hlt]
          abel
    · have hieq : i = arr1.length := by omega
      have hjeq : j = arr2.length := by omega
      refine ⟨out, ?_, ?_, ?_⟩
      · rw [mergeLoop, if_neg hc]
      · simp [hieq]
      · simp [hjeq]

/-! ### C6: completeness of the key diff -/

/-- C6 counterexample: with a null record in the new input, the walk emits an
`unchanged` entry with the null id, so the ids across
`removed ++ changed ++ unchanged` are {null} while the old input, being
empty, has no composite keys at all. -/
theorem keyDiffHelper_completeness_counterexample :
    keyDiffHelper [] [.vnull] ["id"] = ⟨[], [], [], [⟨none, .vnull⟩]⟩ ∧
    ¬ (∀ k, k ∈ oldSideIds (keyDiffHelper [] [.vnull] ["id"]) ↔
        ∃ r ∈ ([] : List Value), constructKey r ["id"] = k) := by
  refine ⟨rfl, fun h => ?_⟩
  have h0 := (h none).mp (by
    rw [show oldSideIds (keyDiffHelper [] [.vnull] ["id"]) = [none] from rfl]
    simp)
  obtain ⟨r, hr, _⟩ := h0
  exact absurd hr (List.not_mem_nil r)

/-- C6 amended: provided neither input contains a null (or undefined) record
— so the null key arises only as the end-of-sequence sentinel — the set of
ids across the `removed`, `changed` and `unchanged` outputs of
`keyDiffHelper` equals the set of composite keys of `oldRecords`, and the
set across `added`, `changed` and `unchanged` equals the set of composite
keys of `newRecords`. -/
theorem keyDiffHelper_completeness (arr1 arr2 : List Value) (key : List String)
    (h1 : ∀ r ∈ arr1, r.isNullish = false) (h2 : ∀ r ∈ arr2, r.isNullish = false) :
    (∀ k, k ∈ oldSideIds (keyDiffHelper arr1 arr2 key) ↔
      ∃ r ∈ arr1, constructKey r key = k) ∧
    (∀ k, k ∈ newSideIds (keyDiffHelper arr1 arr2 key) ↔
      ∃ r ∈ arr2, constructKey r key = k) := by
  have hp1 : (List.insertionSort (rowLE key) arr1).Perm arr1 :=
    List.perm_insertionSort _ _
  have hp2 : (List.insertionSort (rowLE key) arr2).Perm arr2 :=
    List.perm_insertionSort _ _
  have h1' : ∀ r ∈ List.insertionSort (rowLE key) arr1, r.isNullish = false :=
    fun r hr => h1 r (hp1.mem_iff.mp hr)
  have h2' : ∀ r ∈ List.insertionSort (rowLE key) arr2, r.isNullish = false :=
    fun r hr => h2 r (hp2.mem_iff.mp hr)
  obtain ⟨res, hres, hol, hnw⟩ := mergeLoop_ids
    ((List.insertionSort (rowLE key) arr1).length +
      (List.insertionSort (rowLE key) arr2).length + 1) key
    (List.insertionSort (rowLE key) arr1) (List.insertionSort (rowLE key) arr2) 0 0
    .empty h1' h2' (by omega) (by omega) (by omega)
  have hkd : keyDiffHelper arr1 arr2 key = res := by
    show (mergeLoop _ key _ _ 0 0 .empty).getD .empty = res
    rw [hres]
    rfl
  rw [hkd]
  simp only [List.drop_zero, show oldSideIds DiffResult.empty = [] from rfl,
    show newSideIds DiffResult.empty = [] from rfl, Multiset.coe_nil, zero_add] at hol hnw
  have holp : (oldSideIds res).Perm
      ((List.insertionSort (rowLE key) arr1).map fun r => constructKey r key) :=
    Multiset.coe_eq_coe.mp hol
  have hnwp : (newSideIds res).Perm
      ((List.insertionSort (rowLE key) arr2).map fun r => constructKey r key) :=
    Multiset.coe_eq_coe.mp hnw
  constructor
  · intro k
    rw [holp.mem_iff, List.mem_map]
    constructor
    · rintro ⟨r, hr, hrk⟩
      exact ⟨r, hp1.mem_iff.mp hr, hrk⟩
    · rintro ⟨r, hr, hrk⟩
      exact ⟨r, hp1.mem_iff.mpr hr, hrk⟩
  · intro k
    rw [hnwp.mem_iff, List.mem_map]
    constructor
    · rintro ⟨r, hr, hrk⟩
      exact ⟨r, hp2.mem_iff.mp hr, hrk⟩
    · rintro ⟨r, hr, hrk⟩
      exact ⟨r, hp2.mem_iff.mpr hr, hrk⟩

theorem keyDiffHelper_completeness_witness :
    (∀ r ∈ [Value.vobj [("id", .vint 1)]], r.isNullish = false) ∧
    ((∀ k, k ∈ oldSideIds (keyDiffHelper [.vobj [("id", .vint 1)]] [] ["id"]) ↔
        ∃ r ∈ [Value.vobj [("id", .vint 1)]], constructKey r ["id"] = k) ∧
     (∀ k, k ∈ newSideIds (keyDiffHelper [.vobj [("id", .vint 1)]] [] ["id"]) ↔
        ∃ r ∈ ([] : List Value), constructKey r ["id"] = k)) :=
  ⟨by decide,
   keyDiffHelper_completeness [.vobj [("id", .vint 1)]] [] ["id"] (by decide) (by decide)⟩

/-! ### Empty-key behaviour of the merge walk -/

theorem constructKey_empty {row : Value} (h : row.isNullish = false) :
    constructKey row [] = some [] := by
  simp [constructKey, h]

theorem insertionSort_rowLE_empty_id : ∀ l : List Value,
    (∀ r ∈ l, r.isNullish = false) → List.insertionSort (rowLE []) l = l
  | [], _ => rfl
  | a :: l, h => by
    have ha : a.isNullish = false := h a (by simp)
    have hl : ∀ r ∈ l, r.isNullish = false := fun r hr => h r (by simp [hr])
    show List.orderedInsert (rowLE []) a (List.insertionSort (rowLE []) l) = a :: l
    rw [insertionSort_rowLE_empty_id l hl]
    cases l with
    | nil => rfl
    | cons b l2 =>
      have hb : b.isNullish = false := hl b (by simp)
      have hle : rowLE [] a b := by
        show lexCompare (constructKey a []) (constructKey b []) ≤ 0
        rw [constructKey_empty ha, constructKey_empty hb]
        decide
      show (if rowLE [] a b then a :: b :: l2 else
        b :: List.orderedInsert (rowLE []) a l2) = a :: b :: l2
      rw [if_pos hle]

theorem length_filter_partition (p : Nat → Bool) : ∀ l : List Nat,
    (l.filter p).length + (l.filter fun t => !p t).length = l.length
  | [] => rfl
  | a :: l => by
    rw [List.filter_cons, List.filter_cons]
    have ih := length_filter_partition p l
    cases h : p a with
    | true =>
      rw [if_pos rfl, if_neg (by simp)]
      simp only [List.length_cons]
      omega
    | false =>
      rw [if_neg (by simp), if_pos (by simp)]
      simp only [List.length_cons]
      omega

theorem filter_map_succ (p : Nat → Bool) : ∀ l : List Nat,
    (l.map Nat.succ).filter p = (l.filter fun t => p (t + 1)).map Nat.succ
  | [] => rfl
  | a :: l => by
    rw [List.map_cons, List.filter_cons, List.filter_cons]
    have ih := filter_map_succ p l
    cases h : p (a + 1) with
    | true =>
      rw [if_pos rfl, if_pos rfl, ih, List.map_cons]
    | false =>
      rw [if_neg (by simp), if_neg (by simp), ih]

theorem range_filter_map_succ (M : Nat) (p : Nat → Bool) (g : Nat → DiffEntry) :
    ((List.range (M + 1)).filter p).map g =
      (if p 0 = true then [g 0] else []) ++
        (((List.range M).filter fun t => p (t + 1)).map fun t => g (t + 1)) := by
  rw [List.range_succ_eq_map, List.filter_cons]
  cases h : p 0 with
  | true =>
    rw [if_pos rfl, if_pos rfl, List.map_cons, filter_map_succ, List.map_map]
    rfl
  | false =>
    rw [if_neg (by simp), if_neg (by simp), List.nil_append, filter_map_succ,
      List.map_map]
    rfl

/-- With an empty key list and null-free arrays every composite key is
`some []`, so the merge walk always takes its equal branch while both
cursors are in range — pairing the rows positionally — and then drains the
longer array into `removed` or `added`. -/
theorem mergeLoop_empty_key : ∀ (fuel : Nat) (arr1 arr2 : List Value) (i j : Nat)
    (out : DiffResult),
    (∀ r ∈ arr1, r.isNullish = false) → (∀ r ∈ arr2, r.isNullish = false) →
    i ≤ arr1.length → j ≤ arr2.length →
    (arr1.length - i) + (arr2.length - j) < fuel →
    mergeLoop fuel [] arr1 arr2 i j out = some
      { removed := out.removed ++
          (arr1.drop (i + min (arr1.length - i) (arr2.length - j))).map
            (fun v => ⟨some [], v⟩),
        added := out.added ++
          (arr2.drop (j + min (arr1.length - i) (arr2.length - j))).map
            (fun v => ⟨some [], v⟩),
        changed := out.changed ++
          ((List.range (min (arr1.length - i) (arr2.length - j))).filter
              (fun t => !diffIsEmpty (detailedDiff (arr1.getD (i + t) .vundef)
                (arr2.getD (j + t) .vundef)))).map
            (fun t => ⟨some [], detailedDiff (arr1.getD (i + t) .vundef)
              (arr2.getD (j + t) .vundef)⟩),
        unchanged := out.unchanged ++
          ((List.range (min (arr1.length - i) (arr2.length - j))).filter
              (fun t => diffIsEmpty (detailedDiff (arr1.getD (i + t) .vundef)
                (arr2.getD (j + t) .vundef)))).map
            (fun t => ⟨some [], arr2.getD (j + t) .vundef⟩) } := by
  intro fuel
  induction fuel with
  | zero => intro arr1 arr2 i j out _ _ _ _ hfuel; omega
  | succ fuel ih =>
    intro arr1 arr2 i j out h1 h2 hi hj hfuel
    obtain ⟨oR, oA, oC, oU⟩ := out
    by_cases hi1 : i < arr1.length
    · by_cases hj1 : j < arr2.length
      · have hk1 : keyAt arr1 [] i = some [] := by
          rw [keyAt_of_lt hi1, constructKey_empty (h1 _ (getD_mem hi1))]
        have hk2 : keyAt arr2 [] j = some [] := by
          rw [keyAt_of_lt hj1, constructKey_empty (h2 _ (getD_mem hj1))]
        rw [mergeLoop, if_pos (Or.inl hi1), hk1, hk2]
        rw [if_neg (by decide), if_neg (by decide)]
        have hmin : min (arr1.length - (i + 1)) (arr2.length - (j + 1)) =
            min (arr1.length - i) (arr2.length - j) - 1 := by omega
        obtain ⟨M0, hM0⟩ : ∃ M0, min (arr1.length - i) (arr2.length - j) = M0 + 1 :=
          ⟨min (arr1.length - i) (arr2.length - j) - 1, by omega⟩
        have hidx1 : ∀ t : Nat, i + 1 + t = i + (t + 1) := fun t => by omega
        have hidx2 : ∀ t : Nat, j + 1 + t = j + (t + 1) := fun t => by omega
        cases hemp : diffIsEmpty (detailedDiff (arr1.getD i .vundef)
            (arr2.getD j .vundef)) with
        | true =>
          rw [if_pos rfl]
          rw [ih arr1 arr2 (i + 1) (j + 1) _ h1 h2 (by omega) (by omega) (by omega)]
          rw [hmin, hM0]
          simp only [Nat.add_sub_cancel, hidx1, hidx2]
          congr 1
          congr 1
          · rw [range_filter_map_succ M0
                (fun t => !diffIsEmpty (detailedDiff (arr1.getD (i + t) .vundef)
                  (arr2.getD (j + t) .vundef)))
                (fun t => ⟨some [], detailedDiff (arr1.getD (i + t) .vundef)
                  (arr2.getD (j + t) .vundef)⟩)]
            simp only [Nat.add_zero]
            rw [hemp, if_neg (by decide), List.nil_append]
          · rw [range_filter_map_succ M0
                (fun t => diffIsEmpty (detailedDiff (arr1.getD (i + t) .vundef)
                  (arr2.getD (j + t) .vundef)))
                (fun t => ⟨some [], arr2.getD (j + t) .vundef⟩)]
            simp only [Nat.add_zero]
            rw [if_pos hemp, List.append_assoc]
        | false =>
          rw [if_neg (by simp)]
          rw [ih arr1 arr2 (i + 1) (j + 1) _ h1 h2 (by omega) (by omega) (by omega)]
          rw [hmin, hM0]
          simp only [Nat.add_sub_cancel, hidx1, hidx2]
          congr 1
          congr 1
          · rw [range_filter_map_succ M0
                (fun t => !diffIsEmpty (detailedDiff (arr1.getD (i + t) .vundef)
                  (arr2.getD (j + t) .vundef)))
                (fun t => ⟨some [], detailedDiff (arr1.getD (i + t) .vundef)
                  (arr2.getD (j + t) .vundef)⟩)]
            simp only [Nat.add_zero]
            rw [hemp, if_pos (by decide), List.append_assoc]
          · rw [range_filter_map_succ M0
                (fun t => diffIsEmpty (detailedDiff (arr1.getD (i + t) .vundef)
                  (arr2.getD (j + t) .vundef)))
                (fun t => ⟨some [], arr2.getD (j + t) .vundef⟩)]
            simp only [Nat.add_zero]
            rw [hemp, if_neg (by decide), List.nil_append]
      · -- new side exhausted: the current old row is removed
        have hjeq : j = arr2.length := by omega
        have hk1 : keyAt arr1 [] i = some [] := by
          rw [keyAt_of_lt hi1, constructKey_empty (h1 _ (getD_mem hi1))]
        have hk2 : keyAt arr2 [] j = none := by
          rw [keyAt, if_pos hjeq]
        rw [mergeLoop, if_pos (Or.inl hi1), hk1, hk2]
        rw [if_pos (by decide)]
        rw [ih arr1 arr2 (i + 1) j _ h1 h2 (by omega) (by omega) (by omega)]
        have hz1 : min (arr1.length - (i + 1)) (arr2.length - j) = 0 := by omega
        have hz2 : min (arr1.length - i) (arr2.length - j) = 0 := by omega
        rw [hz1, hz2]
        simp only [Nat.add_zero, List.range_zero, List.filter_nil, List.map_nil,
          List.append_nil, List.append_assoc]
        congr 1
        congr 1
        rw [List.drop_eq_getElem_cons hi1, List.map_cons,
          getD_eq_getElem_of_lt hi1]
        rfl
    · by_cases hj1 : j < arr2.length
      · -- old side exhausted: the current new row is added
        have hieq : i = arr1.length := by omega
        have hk1 : keyAt arr1 [] i = none := by
          rw [keyAt, if_pos hieq]
        have hk2 : keyAt arr2 [] j = some [] := by
          rw [keyAt_of_lt hj1, constructKey_empty (h2 _ (getD_mem hj1))]
        rw [mergeLoop, if_pos (Or.inr hj1), hk1, hk2]
        rw [if_neg (by decide), if_pos (by decide)]
        rw [ih arr1 arr2 i (j + 1) _ h1 h2 (by omega) (by omega) (by omega)]
        have hz1 : min (arr1.length - i) (arr2.length - (j + 1)) = 0 := by omega
        have hz2 : min (arr1.length - i) (arr2.length - j) = 0 := by omega
        rw [hz1, hz2]
        simp only [Nat.add_zero, List.range_zero, List.filter_nil, List.map_nil,
          List.append_nil, List.append_assoc]
        congr 1
        congr 1
        rw [List.drop_eq_getElem_cons hj1, List.map_cons,
          getD_eq_getElem_of_lt hj1]
        rfl
      · -- both cursors at the end: the loop stops
        have hieq : i = arr1.length := by omega
        have hjeq : j = arr2.length := by omega
        rw [mergeLoop, if_neg (by omega)]
        subst hieq
        subst hjeq
        simp [Nat.sub_self, List.drop_length, List.append_nil]

/-! ### C2: no validation of an empty key list -/

/-- C2 counterexample: `keyDiff` performs no validation whatsoever — called
with an empty `keyFields` list it computes and returns an ordinary
`DiffResult` (here pairing the two records under the empty composite key and
classifying them as changed) instead of failing. -/
theorem keyDiff_empty_key_counterexample :
    keyDiff [.vobj [("id", .vint 1)]] [.vobj [("id", .vint 2)]] [] =
      ⟨[], [],
       [⟨some [], .vobj [("added", .vobj []), ("deleted", .vobj []),
          ("updated", .vobj [("id", .vint 2)])]⟩], []⟩ := rfl

/-- C2 amended: `keyDiff` does not validate `keyFields` — called with an empty
key list it does not fail: every non-null record receives the empty composite
key `[]`, so for null-free inputs all records compare equal under the key
comparator and the merge walk pairs the records positionally — position `t`
of the old array with position `t` of the new array, classified changed or
unchanged by the field diff, for the first `min(|old|, |new|)` positions —
while the excess records of the longer array are classified removed (old
side) or added (new side). -/
theorem keyDiff_empty_key_no_validation :
    (∀ row : Value, row.isNullish = false → constructKey row [] = some []) ∧
    (∀ arr1 arr2 : List Value,
      (∀ r ∈ arr1, r.isNullish = false) → (∀ r ∈ arr2, r.isNullish = false) →
      (∀ r1 ∈ arr1, ∀ r2 ∈ arr2,
        lexCompare (constructKey r1 []) (constructKey r2 []) = 0) ∧
      keyDiff arr1 arr2 [] =
        { removed := (arr1.drop (min arr1.length arr2.length)).map
            (fun v => ⟨some [], v⟩),
          added := (arr2.drop (min arr1.length arr2.length)).map
            (fun v => ⟨some [], v⟩),
          changed := ((List.range (min arr1.length arr2.length)).filter
              (fun t => !diffIsEmpty (detailedDiff (arr1.getD t .vundef)
                (arr2.getD t .vundef)))).map
            (fun t => ⟨some [], detailedDiff (arr1.getD t .vundef)
              (arr2.getD t .vundef)⟩),
          unchanged := ((List.range (min arr1.length arr2.length)).filter
              (fun t => diffIsEmpty (detailedDiff (arr1.getD t .vundef)
                (arr2.getD t .vundef)))).map
            (fun t => ⟨some [], arr2.getD t .vundef⟩) } ∧
      (keyDiff arr1 arr2 []).changed.length +
          (keyDiff arr1 arr2 []).unchanged.length = min arr1.length arr2.length ∧
      (keyDiff arr1 arr2 []).removed.length =
          arr1.length - min arr1.length arr2.length ∧
      (keyDiff arr1 arr2 []).added.length =
          arr2.length - min arr1.length arr2.length) := by
  constructor
  · intro row h
    exact constructKey_empty h
  · intro arr1 arr2 h1 h2
    have hkd : keyDiff arr1 arr2 [] =
        { removed := (arr1.drop (min arr1.length arr2.length)).map
            (fun v => ⟨some [], v⟩),
          added := (arr2.drop (min arr1.length arr2.length)).map
            (fun v => ⟨some [], v⟩),
          changed := ((List.range (min arr1.length arr2.length)).filter
              (fun t => !diffIsEmpty (detailedDiff (arr1.getD t .vundef)
                (arr2.getD t .vundef)))).map
            (fun t => ⟨some [], detailedDiff (arr1.getD t .vundef)
              (arr2.getD t .vundef)⟩),
          unchanged := ((List.range (min arr1.length arr2.length)).filter
              (fun t => diffIsEmpty (detailedDiff (arr1.getD t .vundef)
                (arr2.getD t .vundef)))).map
            (fun t => ⟨some [], arr2.getD t .vundef⟩) } := by
      show (mergeLoop ((List.insertionSort (rowLE []) arr1).length +
          (List.insertionSort (rowLE []) arr2).length + 1) []
          (List.insertionSort (rowLE []) arr1)
          (List.insertionSort (rowLE []) arr2) 0 0 .empty).getD .empty = _
      rw [insertionSort_rowLE_empty_id arr1 h1, insertionSort_rowLE_empty_id arr2 h2]
      rw [mergeLoop_empty_key (arr1.length + arr2.length + 1) arr1 arr2 0 0 .empty
        h1 h2 (by omega) (by omega) (by omega)]
      simp only [Option.getD_some, Nat.sub_zero, Nat.zero_add,
        show DiffResult.empty = (⟨[], [], [], []⟩ : DiffResult) from rfl,
        List.nil_append]
    refine ⟨?_, hkd, ?_, ?_, ?_⟩
    · intro r1 hr1 r2 hr2
      rw [constructKey_empty (h1 r1 hr1), constructKey_empty (h2 r2 hr2)]
      rfl
    · rw [hkd]
      have hp := length_filter_partition
        (fun t => diffIsEmpty (detailedDiff (arr1.getD t .vundef)
          (arr2.getD t .vundef)))
        (List.range (min arr1.length arr2.length))
      simp only [List.length_range] at hp
      simp only [List.length_map]
      omega
    · rw [hkd]
      simp [List.length_map, List.length_drop]
    · rw [hkd]
      simp [List.length_map, List.length_drop]

theorem keyDiff_empty_key_no_validation_witness :
    constructKey (.vobj [("id", .vint 1)]) [] = some [] ∧
    lexCompare (constructKey (.vobj [("id", .vint 1)]) [])
      (constructKey (.vobj [("id", .vint 3)]) []) = 0 ∧
    (keyDiff [.vobj [("id", .vint 1)], .vobj [("id", .vint 2)]]
        [.vobj [("id", .vint 3)]] []).changed.length +
      (keyDiff [.vobj [("id", .vint 1)], .vobj [("id", .vint 2)]]
        [.vobj [("id", .vint 3)]] []).unchanged.length = 1 ∧
    (keyDiff [.vobj [("id", .vint 1)], .vobj [("id", .vint 2)]]
        [.vobj [("id", .vint 3)]] []).removed =
      [⟨some [], .vobj [("id", .vint 2)]⟩] := by
  have h := keyDiff_empty_key_no_validation
  have h2 := h.2 [.vobj [("id", .vint 1)], .vobj [("id", .vint 2)]]
    [.vobj [("id", .vint 3)]] (by decide) (by decide)
  refine ⟨h.1 _ rfl, h2.1 _ (by simp) _ (by simp), ?_, ?_⟩
  · exact h2.2.2.1.trans (by decide)
  · rw [h2.2.1]
    rfl

/-! ### Venn map lemmas -/

theorem vget_eq_none_of_not_mem {m : List (String × Nat)} {k : String}
    (h : k ∉ m.map Prod.fst) : vget m k = none := by
  induction m with
  | nil => rfl
  | cons kv m ih =>
    obtain ⟨k', v'⟩ := kv
    simp only [List.map_cons, List.mem_cons] at h
    push_neg at h
    rw [vget, if_neg h.1.symm]
    exact ih h.2

theorem vget_vset_self (m : List (String × Nat)) (k : String) (v : Nat) :
    vget (vset m k v) k = some v := by
  induction m with
  | nil => simp [vget, vset]
  | cons kv m ih =>
    obtain ⟨k', v'⟩ := kv
    by_cases h : k' = k
    · rw [vset, if_pos h, vget, if_pos rfl]
    · rw [vset, if_neg h, vget, if_neg h]
      exact ih

theorem vget_vset_ne (m : List (String × Nat)) (k : String) (v : Nat) (e : String)
    (h : e ≠ k) : vget (vset m k v) e = vget m e := by
  induction m with
  | nil =>
    have hne : ¬(k = e) := fun hh => h hh.symm
    simp [vset, vget, hne]
  | cons kv m ih =>
    obtain ⟨k', v'⟩ := kv
    by_cases h' : k' = k
    · subst h'
      rw [vset, if_pos rfl, vget, if_neg (fun hh => h hh.symm), vget,
        if_neg (fun hh => h hh.symm)]
    · rw [vset, if_neg h', vget, vget]
      by_cases he : k' = e
      · rw [if_pos he, if_pos he]
      · rw [if_neg he, if_neg he]
        exact ih

theorem vget_vdel_ne (m : List (String × Nat)) (k e : String) (h : e ≠ k) :
    vget (vdel m k) e = vget m e := by
  induction m with
  | nil => rfl
  | cons kv m ih =>
    obtain ⟨k', v'⟩ := kv
    by_cases h' : k' = k
    · subst h'
      rw [vdel, if_pos rfl, vget, if_neg (fun hh => h hh.symm)]
    · rw [vdel, if_neg h', vget, vget]
      by_cases he : k' = e
      · rw [if_pos he, if_pos he]
      · rw [if_neg he, if_neg he]
        exact ih

theorem vget_vdel_self (m : List (String × Nat)) (k : String)
    (h : (m.map Prod.fst).Nodup) : vget (vdel m k) k = none := by
  induction m with
  | nil => rfl
  | cons kv m ih =>
    obtain ⟨k', v'⟩ := kv
    simp only [List.map_cons, List.nodup_cons] at h
    by_cases h' : k' = k
    · rw [vdel, if_pos h']
      subst h'
      exact vget_eq_none_of_not_mem h.1
    · rw [vdel, if_neg h', vget, if_neg h']
      exact ih h.2

theorem mem_map_fst_vset {m : List (String × Nat)} {k : String} {v : Nat} {x : String}
    (h : x ∈ (vset m k v).map Prod.fst) : x ∈ m.map Prod.fst ∨ x = k := by
  induction m with
  | nil =>
    rw [vset] at h
    simp at h
    exact Or.inr h
  | cons kv m ih =>
    obtain ⟨k', v'⟩ := kv
    by_cases h' : k' = k
    · rw [vset, if_pos h'] at h
      simp only [List.map_cons, List.mem_cons] at h
      rcases h with h | h
      · exact Or.inr h
      · exact Or.inl (by simp [List.mem_cons, h])
    · rw [vset, if_neg h'] at h
      simp only [List.map_cons, List.mem_cons] at h
      rcases h with h | h
      · exact Or.inl (by simp [List.mem_cons, h])
      · rcases ih h with h2 | h2
        · exact Or.inl (by simp [List.mem_cons, h2])
        · exact Or.inr h2

theorem nodup_vset (m : List (String × Nat)) (k : String) (v : Nat)
    (h : (m.map Prod.fst).Nodup) : ((vset m k v).map Prod.fst).Nodup := by
  induction m with
  | nil => simp [vset]
  | cons kv m ih =>
    obtain ⟨k', v'⟩ := kv
    simp only [List.map_cons, List.nodup_cons] at h
    by_cases h' : k' = k
    · rw [vset, if_pos h']
      simp only [List.map_cons, List.nodup_cons]
      subst h'
      exact h
    · rw [vset, if_neg h']
      simp only [List.map_cons, List.nodup_cons]
      refine ⟨fun hmem => ?_, ih h.2⟩
      rcases mem_map_fst_vset hmem with h2 | h2
      · exact h.1 h2
      · exact h' h2
      
theorem sublist_map_fst_vdel (m : List (String × Nat)) (k : String) :
    ((vdel m k).map Prod.fst).Sublist (m.map Prod.fst) := by
  induction m with
  | nil => simp [vdel]
  | cons kv m ih =>
    obtain ⟨k', v'⟩ := kv
    by_cases h' : k' = k
    · rw [vdel, if_pos h']
      exact (List.sublist_cons_self _ _)
    · rw [vdel, if_neg h']
      simp only [List.map_cons]
      exact ih.cons₂ k'

theorem nodup_vdel (m : List (String × Nat)) (k : String)
    (h : (m.map Prod.fst).Nodup) : ((vdel m k).map Prod.fst).Nodup :=
  h.sublist (sublist_map_fst_vdel m k)

theorem mem_vset {m : List (String × Nat)} {k : String} {v : Nat} {kv : String × Nat}
    (h : kv ∈ vset m k v) : kv ∈ m ∨ kv = (k, v) := by
  induction m with
  | nil =>
    rw [vset] at h
    simp at h
    exact Or.inr h
  | cons kv' m ih =>
    obtain ⟨k', v'⟩ := kv'
    by_cases h' : k' = k
    · rw [vset, if_pos h'] at h
      rcases List.mem_cons.mp h with h | h
      · exact Or.inr h
      · exact Or.inl (List.mem_cons_of_mem _ h)
    · rw [vset, if_neg h'] at h
      rcases List.mem_cons.mp h with h | h
      · exact Or.inl (by simp [List.mem_cons, h])
      · rcases ih h with h2 | h2
        · exact Or.inl (List.mem_cons_of_mem _ h2)
        · exact Or.inr h2

theorem mem_vdel {m : List (String × Nat)} {k : String} {kv : String × Nat}
    (h : kv ∈ vdel m k) : kv ∈ m := by
  induction m with
  | nil => exact absurd h (List.not_mem_nil kv)
  | cons kv' m ih =>
    obtain ⟨k', v'⟩ := kv'
    by_cases h' : k' = k
    · rw [vdel, if_pos h'] at h
      exact List.mem_cons_of_mem _ h
    · rw [vdel, if_neg h'] at h
      rcases List.mem_cons.mp h with h | h
      · exact (by simp [List.mem_cons, h])
      · exact List.mem_cons_of_mem _ (ih h)

/-! ### The two venn passes -/

theorem oldPass_spec (rows : List Value) :
    ∀ (v : Venn) (e : String),
      (vget (rows.foldl (vennParserStep 1) v).removed e).getD 0 =
        (vget v.removed e).getD 0 + countCanon e rows ∧
      (rows.foldl (vennParserStep 1) v).added = v.added ∧
      (rows.foldl (vennParserStep 1) v).intersection = v.intersection := by
  induction rows with
  | nil =>
    intro v e
    simp [countCanon]
  | cons r rows ih =>
    intro v e
    rw [List.foldl_cons]
    have hstep : vennParserStep 1 v r =
        { v with removed := (vset v.removed (stableStringify r)
            ((vget v.removed (stableStringify r)).getD 0 + 1)) } := rfl
    rw [hstep]
    obtain ⟨h1, h2, h3⟩ := ih { v with removed := (vset v.removed (stableStringify r)
      ((vget v.removed (stableStringify r)).getD 0 + 1)) } e
    refine ⟨?_, h2, h3⟩
    rw [h1]
    by_cases he : e = stableStringify r
    · subst he
      rw [vget_vset_self]
      simp only [countCanon, List.countP_cons]
      simp
      try omega
    · rw [vget_vset_ne _ _ _ _ he]
      simp only [countCanon, List.countP_cons]
      have : (stableStringify r == e) = false := by
        simp [Ne.symm he]
      rw [this]
      simp
      try omega

theorem oldPass_nodup (rows : List Value) :
    ∀ v : Venn, (v.removed.map Prod.fst).Nodup →
      ((rows.foldl (vennParserStep 1) v).removed.map Prod.fst).Nodup := by
  induction rows with
  | nil =>
    intro v h
    exact h
  | cons r rows ih =>
    intro v h
    rw [List.foldl_cons]
    exact ih _ (nodup_vset _ _ _ h)

theorem newPass_spec (rows : List Value) :
    ∀ v : Venn, (v.removed.map Prod.fst).Nodup →
      ∀ e : String,
        ((vget (rows.foldl (vennParserStep 2) v).removed e).getD 0 +
            (vget (rows.foldl (vennParserStep 2) v).intersection e).getD 0 =
          (vget v.removed e).getD 0 + (vget v.intersection e).getD 0) ∧
        ((vget (rows.foldl (vennParserStep 2) v).added e).getD 0 +
            (vget (rows.foldl (vennParserStep 2) v).intersection e).getD 0 =
          (vget v.added e).getD 0 + (vget v.intersection e).getD 0 + countCanon e rows) := by
  induction rows with
  | nil =>
    intro v _ e
    simp [countCanon]
  | cons r rows ih =>
    intro v hnd e
    rw [List.foldl_cons]
    by_cases hr0 : (vget v.removed (stableStringify r)).getD 0 = 0
    · -- miss: the row goes to added
      have hstep : vennParserStep 2 v r =
          { v with added := (vset v.added (stableStringify r)
              ((vget v.added (stableStringify r)).getD 0 + 1)) } := by
        rw [vennParserStep]
        simp [hr0]
      have hnd' : ((vennParserStep 2 v r).removed.map Prod.fst).Nodup := by
        rw [hstep]
        exact hnd
      obtain ⟨hA, hB⟩ := ih (vennParserStep 2 v r) hnd' e
      rw [hstep] at hA hB ⊢
      simp only [] at hA hB
      constructor
      · rw [hA]
      · rw [hB]
        by_cases he : e = stableStringify r
        · subst he
          rw [vget_vset_self]
          simp only [countCanon, List.countP_cons]
          simp
          try omega
        · rw [vget_vset_ne _ _ _ _ he]
          simp only [countCanon, List.countP_cons]
          have : (stableStringify r == e) = false := by simp [Ne.symm he]
          rw [this]
          simp
          try omega
    · -- hit: move one occurrence from removed to intersection
      have hstep : vennParserStep 2 v r =
          { v with
              removed :=
                (if (vget v.removed (stableStringify r)).getD 0 = 1 then
                  vdel v.removed (stableStringify r)
                else
                  vset v.removed (stableStringify r)
                    ((vget v.removed (stableStringify r)).getD 0 - 1)),
              intersection := (vset v.intersection (stableStringify r)
                ((vget v.intersection (stableStringify r)).getD 0 + 1)) } := by
        rw [vennParserStep]
        simp [hr0]
      have hnd' : ((vennParserStep 2 v r).removed.map Prod.fst).Nodup := by
        rw [hstep]
        simp only []
        by_cases h1 : (vget v.removed (stableStringify r)).getD 0 = 1
        · rw [if_pos h1]
          exact nodup_vdel _ _ hnd
        · rw [if_neg h1]
          exact nodup_vset _ _ _ hnd
      obtain ⟨hA, hB⟩ := ih (vennParserStep 2 v r) hnd' e
      rw [hstep] at hA hB ⊢
      simp only [] at hA hB
      have hremoved : (vget (if (vget v.removed (stableStringify r)).getD 0 = 1 then
            vdel v.removed (stableStringify r)
          else
            vset v.removed (stableStringify r)
              ((vget v.removed (stableStringify r)).getD 0 - 1)) e).getD 0 =
          if e = stableStringify r then (vget v.removed e).getD 0 - 1
          else (vget v.removed e).getD 0 := by
        by_cases he : e = stableStringify r
        · subst he
          rw [if_pos rfl]
          by_cases h1 : (vget v.removed (stableStringify r)).getD 0 = 1
          · rw [if_pos h1, vget_vdel_self _ _ hnd, h1]
            rfl
          · rw [if_neg h1, vget_vset_self]
            rfl
        · rw [if_neg he]
          by_cases h1 : (vget v.removed (stableStringify r)).getD 0 = 1
          · rw [if_pos h1, vget_vdel_ne _ _ _ he]
          · rw [if_neg h1, vget_vset_ne _ _ _ _ he]
      constructor
      · rw [hA, hremoved]
        by_cases he : e = stableStringify r
        · rw [if_pos he]
          subst he
          rw [vget_vset_self]
          simp
          omega
        · rw [if_neg he, vget_vset_ne _ _ _ _ he]
      · rw [hB]
        by_cases he : e = stableStringify r
        · subst he
          rw [vget_vset_self]
          simp only [countCanon, List.countP_cons]
          simp
          try omega
        · rw [vget_vset_ne _ _ _ _ he]
          simp only [countCanon, List.countP_cons]
          have : (stableStringify r == e) = false := by simp [Ne.symm he]
          rw [this]
          simp
          try omega

/-! ### C5: multiset conservation of the venn engine -/

/-- C5: processing the old rows first and then the new rows, for every
canonical string `e` the final counts satisfy
`removed[e] + intersection[e] = count(e, old)` and
`added[e] + intersection[e] = count(e, new)`, a missing entry counting 0. -/
theorem vennRun_conservation (oldRows newRows : List Value) (e : String) :
    (vget (vennRun oldRows newRows).removed e).getD 0 +
      (vget (vennRun oldRows newRows).intersection e).getD 0 = countCanon e oldRows ∧
    (vget (vennRun oldRows newRows).added e).getD 0 +
      (vget (vennRun oldRows newRows).intersection e).getD 0 = countCanon e newRows := by
  have hv : vennRun oldRows newRows =
      newRows.foldl (vennParserStep 2) (oldRows.foldl (vennParserStep 1) Venn.empty) := rfl
  obtain ⟨hrem, hadd, hint⟩ := oldPass_spec oldRows Venn.empty e
  have hnodup := oldPass_nodup oldRows Venn.empty (by simp [Venn.empty])
  obtain ⟨hA, hB⟩ := newPass_spec newRows _ hnodup e
  rw [hv]
  constructor
  · rw [hA, hrem, hint]
    simp [Venn.empty, vget]
  · rw [hB, hadd, hint]
    simp [Venn.empty, vget]

/-! ### C8: positive counts in every venn map -/

theorem vennStep_preserves_positive (num : Nat) (v : Venn) (r : Value)
    (h : (∀ kv ∈ v.removed, 0 < kv.2) ∧ (∀ kv ∈ v.added, 0 < kv.2) ∧
      (∀ kv ∈ v.intersection, 0 < kv.2)) :
    (∀ kv ∈ (vennParserStep num v r).removed, 0 < kv.2) ∧
    (∀ kv ∈ (vennParserStep num v r).added, 0 < kv.2) ∧
    (∀ kv ∈ (vennParserStep num v r).intersection, 0 < kv.2) := by
  obtain ⟨hrem, hadd, hint⟩ := h
  by_cases hnum : num = 1
  · have hstep : vennParserStep num v r =
        { v with removed := (vset v.removed (stableStringify r)
            ((vget v.removed (stableStringify r)).getD 0 + 1)) } := by
      rw [vennParserStep, if_pos hnum]
    rw [hstep]
    refine ⟨fun kv hkv => ?_, hadd, hint⟩
    rcases mem_vset hkv with h2 | h2
    · exact hrem kv h2
    · rw [h2]
      omega
  · by_cases hr0 : (vget v.removed (stableStringify r)).getD 0 = 0
    · have hstep : vennParserStep num v r =
          { v with added := (vset v.added (stableStringify r)
              ((vget v.added (stableStringify r)).getD 0 + 1)) } := by
        rw [vennParserStep, if_neg hnum]
        simp [hr0]
      rw [hstep]
      refine ⟨hrem, fun kv hkv => ?_, hint⟩
      rcases mem_vset hkv with h2 | h2
      · exact hadd kv h2
      · rw [h2]
        omega
    · have hstep : vennParserStep num v r =
          { v with
              removed :=
                if (vget v.removed (stableStringify r)).getD 0 = 1 then
                  vdel v.removed (stableStringify r)
                else
                  vset v.removed (stableStringify r)
                    ((vget v.removed (stableStringify r)).getD 0 - 1),
              intersection := (vset v.intersection (stableStringify r)
                ((vget v.intersection (stableStringify r)).getD 0 + 1)) } := by
        rw [vennParserStep, if_neg hnum]
        simp [hr0]
      rw [hstep]
      refine ⟨fun kv hkv => ?_, hadd, fun kv hkv => ?_⟩
      · by_cases h1 : (vget v.removed (stableStringify r)).getD 0 = 1
        · rw [if_pos h1] at hkv
          exact hrem kv (mem_vdel hkv)
        · rw [if_neg h1] at hkv
          rcases mem_vset hkv with h2 | h2
          · exact hrem kv h2
          · rw [h2]
            simp
            omega
      · rcases mem_vset hkv with h2 | h2
        · exact hint kv h2
        · rw [h2]
          omega

theorem foldl_preserves_positive (num : Nat) (rows : List Value) :
    ∀ v : Venn,
      (∀ kv ∈ v.removed, 0 < kv.2) ∧ (∀ kv ∈ v.added, 0 < kv.2) ∧
        (∀ kv ∈ v.intersection, 0 < kv.2) →
      (∀ kv ∈ (rows.foldl (vennParserStep num) v).removed, 0 < kv.2) ∧
      (∀ kv ∈ (rows.foldl (vennParserStep num) v).added, 0 < kv.2) ∧
      (∀ kv ∈ (rows.foldl (vennParserStep num) v).intersection, 0 < kv.2) := by
  induction rows with
  | nil =>
    intro v h
    exact h
  | cons r rows ih =>
    intro v h
    rw [List.foldl_cons]
    exact ih _ (vennStep_preserves_positive num v r h)

/-- C8: after processing every record of the old pass and the new pass,
every entry present in the `removed`, `added` and `intersection` maps holds
a strictly positive count — a `removed` count decremented to zero has its
entry deleted rather than stored as 0. -/
theorem vennRun_positive (oldRows newRows : List Value) :
    allPositiveB (vennRun oldRows newRows) = true := by
  have hv : vennRun oldRows newRows =
      newRows.foldl (vennParserStep 2) (oldRows.foldl (vennParserStep 1) Venn.empty) := rfl
  have h0 : (∀ kv ∈ Venn.empty.removed, 0 < kv.2) ∧
      (∀ kv ∈ Venn.empty.added, 0 < kv.2) ∧
      (∀ kv ∈ Venn.empty.intersection, 0 < kv.2) := by
    refine ⟨fun kv hkv => ?_, fun kv hkv => ?_, fun kv hkv => ?_⟩ <;>
      exact absurd hkv (List.not_mem_nil kv)
  have h1 := foldl_preserves_positive 1 oldRows Venn.empty h0
  have h2 := foldl_preserves_positive 2 newRows _ h1
  rw [hv, allPositiveB, List.all_eq_true]
  intro kv hkv
  rw [decide_eq_true_eq]
  rcases List.mem_append.mp hkv with hm | hm
  · rcases List.mem_append.mp hm with hm2 | hm2
    · exact h2.1 kv hm2
    · exact h2.2.1 kv hm2
  · exact h2.2.2 kv hm

/-! ### Decimal digits round-trip -/

theorem digitChar_isDigit {n : Nat} (h : n < 10) : (digitChar n).isDigit = true := by
  interval_cases n <;> decide

theorem digitChar_toNat {n : Nat} (h : n < 10) : (digitChar n).toNat = 48 + n := by
  interval_cases n <;> decide

theorem natChars_ne_nil (n : Nat) : natChars n ≠ [] := by
  rw [natChars]
  by_cases h : n < 10
  · simp [h]
  · simp [h]

theorem natChars_digits (n : Nat) : ∀ c ∈ natChars n, c.isDigit = true := by
  induction n using Nat.strong_induction_on with
  | _ n ih =>
    intro c hc
    rw [natChars] at hc
    by_cases h : n < 10
    · rw [if_pos h] at hc
      simp at hc
      subst hc
      exact digitChar_isDigit h
    · rw [if_neg h] at hc
      rcases List.mem_append.mp hc with h2 | h2
      · exact ih (n / 10) (Nat.div_lt_self (by omega) (by omega)) c h2
      · simp at h2
        subst h2
        exact digitChar_isDigit (Nat.mod_lt _ (by omega))

theorem natChars_foldl (n : Nat) : ∀ a : Nat,
    (natChars n).foldl (fun a c => a * 10 + (c.toNat - 48)) a =
      a * 10 ^ (natChars n).length + n := by
  induction n using Nat.strong_induction_on with
  | _ n ih =>
    intro a
    rw [natChars]
    by_cases h : n < 10
    · rw [if_pos h]
      simp [digitChar_toNat h]
    · rw [if_neg h]
      rw [List.foldl_append, ih (n / 10) (Nat.div_lt_self (by omega) (by omega)) a]
      simp only [List.foldl_cons, List.foldl_nil, List.length_append, List.length_cons,
        List.length_nil]
      rw [digitChar_toNat (Nat.mod_lt _ (by omega))]
      have hmod : 48 + n % 10 - 48 = n % 10 := by omega
      rw [hmod, pow_succ, Nat.add_mul, ← Nat.mul_assoc, Nat.add_assoc]
      congr 1
      omega

theorem natChars_foldl_zero (n : Nat) :
    (natChars n).foldl (fun a c => a * 10 + (c.toNat - 48)) 0 = n := by
  have h := natChars_foldl n 0
  simpa using h

theorem takeWhile_dropWhile_append {p : Char → Bool} :
    ∀ l r : List Char, (∀ c ∈ l, p c = true) → (∀ c ∈ r.head?, p c = false) →
      (l ++ r).takeWhile p = l ∧ (l ++ r).dropWhile p = r := by
  intro l
  induction l with
  | nil =>
    intro r _ hr
    cases r with
    | nil => simp
    | cons c r' =>
      have hc := hr c rfl
      simp [List.takeWhile, List.dropWhile, hc]
  | cons c l' ih =>
    intro r hl hr
    have hc := hl c (by simp)
    obtain ⟨h1, h2⟩ := ih r (fun d hd => hl d (by simp [hd])) hr
    simp only [List.cons_append, List.takeWhile_cons, List.dropWhile_cons, hc]
    simp [h1, h2]

theorem parseNat_append (n : Nat) (rest : List Char)
    (hrest : ∀ c ∈ rest.head?, c.isDigit = false) :
    parseNat (natChars n ++ rest) = some (n, rest) := by
  obtain ⟨ht, hd⟩ := takeWhile_dropWhile_append (natChars n) rest (natChars_digits n) hrest
  rw [parseNat]
  simp only [ht, hd]
  rw [if_neg (by simp [natChars_ne_nil n])]
  rw [natChars_foldl_zero]

/-! ### String escaping round-trip -/

theorem hexVal_hexChar {n : Nat} (h : n < 16) : hexVal (hexChar n) = some n := by
  interval_cases n <;> decide

theorem parseStrBody_escape : ∀ s rest,
    parseStrBody (escapeChars s ++ '"' :: rest) = some (s, rest) := by
  intro s
  induction s with
  | nil =>
    intro rest
    rw [show escapeChars [] = [] from rfl, List.nil_append, parseStrBody.eq_def]
    simp
  | cons c s ih =>
    intro rest
    have hsplit : escapeChars (c :: s) = escapeChar c ++ escapeChars s := by
      simp [escapeChars]
    rw [hsplit, List.append_assoc]
    by_cases h1 : c = '\\'
    · subst h1
      rw [show escapeChar '\\' = ['\\', '\\'] from rfl]
      simp [parseStrBody, unescapeChar, ih]
    · by_cases h2 : c = '"'
      · subst h2
        rw [show escapeChar '"' = ['\\', '"'] from rfl]
        simp [parseStrBody, unescapeChar, ih]
      · by_cases h3 : c = '\x08'
        · subst h3
          rw [show escapeChar '\x08' = ['\\', 'b'] from rfl]
          simp [parseStrBody, unescapeChar, ih]
        · by_cases h4 : c = '\x09'
          · subst h4
            rw [show escapeChar '\x09' = ['\\', 't'] from rfl]
            simp [parseStrBody, unescapeChar, ih]
          · by_cases h5 : c = '\x0a'
            · subst h5
              rw [show escapeChar '\x0a' = ['\\', 'n'] from rfl]
              simp [parseStrBody, unescapeChar, ih]
            · by_cases h6 : c = '\x0c'
              · subst h6
                rw [show escapeChar '\x0c' = ['\\', 'f'] from rfl]
                simp [parseStrBody, unescapeChar, ih]
              · by_cases h7 : c = '\x0d'
                · subst h7
                  rw [show escapeChar '\x0d' = ['\\', 'r'] from rfl]
                  simp [parseStrBody, unescapeChar, ih]
                · by_cases h8 : c.toNat < 32
                  · have hesc : escapeChar c =
                        ['\\', 'u', '0', '0', hexChar (c.toNat / 16),
                          hexChar (c.toNat % 16)] := by
                      rw [escapeChar, if_neg h1, if_neg h2, if_neg h3, if_neg h4,
                        if_neg h5, if_neg h6, if_neg h7, if_pos h8]
                    rw [hesc]
                    have hhi : hexVal (hexChar (c.toNat / 16)) = some (c.toNat / 16) :=
                      hexVal_hexChar (by omega)
                    have hlo : hexVal (hexChar (c.toNat % 16)) = some (c.toNat % 16) :=
                      hexVal_hexChar (Nat.mod_lt _ (by omega))
                    have hval : ((0 * 16 + 0) * 16 + c.toNat / 16) * 16 + c.toNat % 16 =
                        c.toNat := by
                      omega
                    simp [parseStrBody, hhi, hlo, ih]
                    rw [show hexVal '0' = some 0 from by decide]
                    simp only [hval]
                    simp only [Option.some.injEq, Prod.mk.injEq, List.cons.injEq]
                    simp [Char.ofNat_toNat]
                  · have hesc : escapeChar c = [c] := by
                      rw [escapeChar, if_neg h1, if_neg h2, if_neg h3, if_neg h4,
                        if_neg h5, if_neg h6, if_neg h7, if_neg h8]
                    rw [hesc]
                    rw [show ([c] : List Char) ++ (escapeChars s ++ '"' :: rest) =
                      c :: (escapeChars s ++ '"' :: rest) from rfl]
                    rw [parseStrBody.eq_def]
                    simp [h1, h2, ih]

/-! ### Parser inverts the serializer: base cases -/

theorem take_head {α : Type} {d b : α} {t l : List α} :
    ∀ n : Nat, (d :: t).take n = b :: l → d = b
  | 0, h => by simp at h
  | n + 1, h => by
    rw [List.take_succ_cons] at h
    exact (List.cons.injEq _ _ _ _).mp h |>.1

theorem natChars_head (m : Nat) :
    ∃ d t, natChars m = d :: t ∧ d.isDigit = true := by
  cases h : natChars m with
  | nil => exact absurd h (natChars_ne_nil m)
  | cons d t =>
    refine ⟨d, t, rfl, natChars_digits m d ?_⟩
    rw [h]
    exact List.mem_cons_self d t

theorem isDigit_ne {d c : Char} (hd : d.isDigit = true) (hc : c.isDigit = false) :
    d ≠ c := by
  intro h
  rw [h, hc] at hd
  exact Bool.noConfusion hd

theorem parseVal_vnull (fuel : Nat) (rest : List Char) :
    parseVal (fuel + 1) (serialize .vnull ++ rest) = some (.vnull, rest) := by
  rw [show serialize Value.vnull = ['n', 'u', 'l', 'l'] from rfl]
  rw [parseVal]
  rw [if_pos (by rfl)]
  rfl

theorem parseVal_vbool (fuel : Nat) (b : Bool) (rest : List Char) :
    parseVal (fuel + 1) (serialize (.vbool b) ++ rest) = some (.vbool b, rest) := by
  cases b
  · rw [show serialize (Value.vbool false) = ['f', 'a', 'l', 's', 'e'] from rfl]
    rw [parseVal]
    simp only [List.cons_append, List.nil_append]
    rw [if_neg (fun h => absurd (take_head 4 h) (by decide))]
    rw [if_neg (fun h => absurd (take_head 4 h) (by decide))]
    rw [if_pos (by rfl)]
    rfl
  · rw [show serialize (Value.vbool true) = ['t', 'r', 'u', 'e'] from rfl]
    rw [parseVal]
    simp only [List.cons_append, List.nil_append]
    rw [if_neg (fun h => absurd (take_head 4 h) (by decide))]
    rw [if_pos (by rfl)]
    rfl

theorem parseVal_vstr (fuel : Nat) (s : String) (rest : List Char) :
    parseVal (fuel + 1) (serialize (.vstr s) ++ rest) = some (.vstr s, rest) := by
  rw [show serialize (Value.vstr s) = '"' :: escapeChars s.data ++ ['"'] from rfl]
  rw [show ('"' :: escapeChars s.data ++ ['"']) ++ rest =
    '"' :: (escapeChars s.data ++ '"' :: rest) by simp]
  rw [parseVal]
  rw [if_neg (fun h => absurd (take_head 4 h) (by decide))]
  rw [if_neg (fun h => absurd (take_head 4 h) (by decide))]
  rw [if_neg (fun h => absurd (take_head 5 h) (by decide))]
  rw [if_pos (by rfl)]
  rw [show ('"' :: (escapeChars s.data ++ '"' :: rest)).drop 1 =
    escapeChars s.data ++ '"' :: rest from rfl]
  rw [parseStrBody_escape]

theorem parseVal_vint (fuel : Nat) (n : Int) (rest : List Char)
    (hrest : ∀ c ∈ rest.head?, c.isDigit = false) :
    parseVal (fuel + 1) (serialize (.vint n) ++ rest) = some (.vint n, rest) := by
  rw [show serialize (Value.vint n) = intChars n from rfl, intChars]
  by_cases hneg : n < 0
  · rw [if_pos hneg]
    rw [List.cons_append, parseVal]
    rw [if_neg (fun h => absurd (take_head 4 h) (by decide))]
    rw [if_neg (fun h => absurd (take_head 4 h) (by decide))]
    rw [if_neg (fun h => absurd (take_head 5 h) (by decide))]
    rw [if_neg (show ¬(('-' :: (natChars n.natAbs ++ rest)).head? = some '"') by simp)]
    rw [if_neg (show ¬(('-' :: (natChars n.natAbs ++ rest)).head? = some '[') by simp)]
    rw [if_neg (show ¬(('-' :: (natChars n.natAbs ++ rest)).head? = some '\x7b') by simp)]
    rw [if_pos (by rfl)]
    rw [show ('-' :: (natChars n.natAbs ++ rest)).drop 1 =
      natChars n.natAbs ++ rest from rfl]
    rw [parseNat_append n.natAbs rest hrest]
    show some (Value.vint (-(n.natAbs : Int)), rest) = some (Value.vint n, rest)
    have habs : -(n.natAbs : Int) = n := by omega
    rw [habs]
  · rw [if_neg hneg]
    obtain ⟨d, t, hdt, hdig⟩ := natChars_head n.toNat
    have hne1 : d ≠ 'n' := isDigit_ne hdig (by decide)
    have hne2 : d ≠ 't' := isDigit_ne hdig (by decide)
    have hne3 : d ≠ 'f' := isDigit_ne hdig (by decide)
    have hne4 : d ≠ '"' := isDigit_ne hdig (by decide)
    have hne5 : d ≠ '[' := isDigit_ne hdig (by decide)
    have hne6 : d ≠ '\x7b' := isDigit_ne hdig (by decide)
    have hne7 : d ≠ '-' := isDigit_ne hdig (by decide)
    rw [hdt, List.cons_append, parseVal]
    rw [if_neg (fun h => absurd (take_head 4 h) hne1)]
    rw [if_neg (fun h => absurd (take_head 4 h) hne2)]
    rw [if_neg (fun h => absurd (take_head 5 h) hne3)]
    rw [if_neg (show ¬((d :: (t ++ rest)).head? = some '"') by simp [hne4])]
    rw [if_neg (show ¬((d :: (t ++ rest)).head? = some '[') by simp [hne5])]
    rw [if_neg (show ¬((d :: (t ++ rest)).head? = some '\x7b') by simp [hne6])]
    rw [if_neg (show ¬((d :: (t ++ rest)).head? = some '-') by simp [hne7])]
    rw [if_pos (show (Option.map Char.isDigit (d :: (t ++ rest)).head?).getD false = true
      by simp [hdig])]
    rw [← List.cons_append, ← hdt, parseNat_append n.toNat rest hrest]
    show some (Value.vint ((n.toNat : Nat) : Int), rest) = some (Value.vint n, rest)
    have htn : ((n.toNat : Nat) : Int) = n := by omega
    rw [htn]

/-! ### Parser inverts the serializer: the induction -/

theorem serElems_eq (v : Value) (vs : List Value) :
    serElems (v :: vs) = serialize v ++ vs.flatMap fun w => ',' :: serialize w := by
  induction vs generalizing v with
  | nil => simp [serElems]
  | cons w ws ih =>
    rw [show serElems (v :: w :: ws) = serialize v ++ ',' :: serElems (w :: ws) from rfl]
    rw [ih w]
    simp

theorem serFields_eq (kv : String × Value) (fs : List (String × Value)) :
    serFields (kv :: fs) =
      ('"' :: escapeChars kv.1.data ++ '"' :: ':' :: serialize kv.2) ++
        fs.flatMap fun kw => ',' :: ('"' :: escapeChars kw.1.data ++ '"' :: ':' :: serialize kw.2) := by
  induction fs generalizing kv with
  | nil =>
    obtain ⟨k, v⟩ := kv
    simp [serFields]
  | cons kw fs ih =>
    obtain ⟨k, v⟩ := kv
    rw [show serFields ((k, v) :: kw :: fs) =
      ('"' :: escapeChars k.data ++ '"' :: ':' :: serialize v) ++ ',' :: serFields (kw :: fs)
      from rfl]
    rw [ih kw]
    simp

theorem serialize_cons (v : Value) (hwf : wellFormed v = true) :
    ∃ c t, serialize v = c :: t ∧ c ≠ ']' := by
  cases v with
  | vnull => exact ⟨'n', _, rfl, by decide⟩
  | vundef => simp [wellFormed] at hwf
  | vbool b =>
    cases b
    · exact ⟨'f', _, rfl, by decide⟩
    · exact ⟨'t', _, rfl, by decide⟩
  | vint n =>
    rw [show serialize (Value.vint n) = intChars n from rfl, intChars]
    by_cases hneg : n < 0
    · rw [if_pos hneg]
      exact ⟨'-', _, rfl, by decide⟩
    · rw [if_neg hneg]
      obtain ⟨d, t, hdt, hdig⟩ := natChars_head n.toNat
      exact ⟨d, t, hdt, isDigit_ne hdig (by decide)⟩
  | vstr s => exact ⟨'"', _, rfl, by decide⟩
  | varr es => exact ⟨'[', _, rfl, by decide⟩
  | vobj fs => exact ⟨'\x7b', _, rfl, by decide⟩

theorem elems_tail_head_notdigit (vs : List Value) (r : List Char) :
    ∀ c ∈ (((vs.flatMap fun w => ',' :: serialize w) ++ ']' :: r)).head?,
      c.isDigit = false := by
  cases vs with
  | nil =>
    intro c hc
    simp at hc
    rw [← hc]
    decide
  | cons v vs =>
    intro c hc
    simp [List.flatMap_cons] at hc
    rw [← hc]
    decide

theorem fields_tail_head_notdigit (fs : List (String × Value)) (r : List Char) :
    ∀ c ∈ (((fs.flatMap fun kw =>
        ',' :: ('"' :: escapeChars kw.1.data ++ '"' :: ':' :: serialize kw.2)) ++
        '\x7d' :: r)).head?, c.isDigit = false := by
  cases fs with
  | nil =>
    intro c hc
    simp at hc
    rw [← hc]
    decide
  | cons kv fs =>
    intro c hc
    simp [List.flatMap_cons] at hc
    rw [← hc]
    decide

theorem parse_serialize : ∀ fuel : Nat,
    (∀ (v : Value) (rest : List Char), sizeOf v < fuel → wellFormed v = true →
      (∀ c ∈ rest.head?, c.isDigit = false) →
      parseVal fuel (serialize v ++ rest) = some (v, rest)) ∧
    (∀ (es : List Value) (rest : List Char), sizeOf es < fuel →
      wellFormedList es = true →
      parseElems fuel (serElems es ++ ']' :: rest) = some (es, rest)) ∧
    (∀ (es : List Value) (rest : List Char), sizeOf es < fuel →
      wellFormedList es = true →
      parseElemsRest fuel ((es.flatMap fun w => ',' :: serialize w) ++ ']' :: rest) =
        some (es, rest)) ∧
    (∀ (kv : String × Value) (rest : List Char), sizeOf kv < fuel →
      wellFormed kv.2 = true → (∀ c ∈ rest.head?, c.isDigit = false) →
      parseField fuel (('"' :: escapeChars kv.1.data ++ '"' :: ':' :: serialize kv.2) ++ rest) =
        some (kv, rest)) ∧
    (∀ (fs : List (String × Value)) (rest : List Char), sizeOf fs < fuel →
      wellFormedFields fs = true →
      parseFields fuel (serFields fs ++ '\x7d' :: rest) = some (fs, rest)) ∧
    (∀ (fs : List (String × Value)) (rest : List Char), sizeOf fs < fuel →
      wellFormedFields fs = true →
      parseFieldsRest fuel ((fs.flatMap fun kw =>
          ',' :: ('"' :: escapeChars kw.1.data ++ '"' :: ':' :: serialize kw.2)) ++
          '\x7d' :: rest) = some (fs, rest)) := by
  intro fuel
  induction fuel with
  | zero =>
    refine ⟨?_, ?_, ?_, ?_, ?_, ?_⟩ <;> (intro x rest h _; omega)
  | succ fuel ih =>
    obtain ⟨ihv, ihe, iher, ihf, ihfs, ihfsr⟩ := ih
    refine ⟨?_, ?_, ?_, ?_, ?_, ?_⟩
    · -- parseVal
      intro v rest hsz hwf hrest
      cases v with
      | vnull => exact parseVal_vnull fuel rest
      | vundef => simp [wellFormed] at hwf
      | vbool b => exact parseVal_vbool fuel b rest
      | vint n => exact parseVal_vint fuel n rest hrest
      | vstr str => exact parseVal_vstr fuel str rest
      | varr es =>
        rw [show serialize (Value.varr es) = '[' :: serElems es ++ [']'] from rfl]
        rw [show ('[' :: serElems es ++ [']']) ++ rest =
          '[' :: (serElems es ++ ']' :: rest) by simp]
        rw [parseVal]
        rw [if_neg (fun h => absurd (take_head 4 h) (by decide))]
        rw [if_neg (fun h => absurd (take_head 4 h) (by decide))]
        rw [if_neg (fun h => absurd (take_head 5 h) (by decide))]
        rw [if_neg (show ¬(('[' :: (serElems es ++ ']' :: rest)).head? = some '"') by simp)]
        rw [if_pos (by rfl)]
        rw [show ('[' :: (serElems es ++ ']' :: rest)).drop 1 =
          serElems es ++ ']' :: rest from rfl]
        have hwl : wellFormedList es = true := by
          simpa [wellFormed] using hwf
        have hsz' : sizeOf es < fuel := by
          have hspec : sizeOf (Value.varr es) = 1 + sizeOf es := by simp
          omega
        simp only [ihe es rest hsz' hwl]
      | vobj fs =>
        rw [show serialize (Value.vobj fs) = '\x7b' :: serFields fs ++ ['\x7d'] from rfl]
        rw [show ('\x7b' :: serFields fs ++ ['\x7d']) ++ rest =
          '\x7b' :: (serFields fs ++ '\x7d' :: rest) by simp]
        rw [parseVal]
        rw [if_neg (fun h => absurd (take_head 4 h) (by decide))]
        rw [if_neg (fun h => absurd (take_head 4 h) (by decide))]
        rw [if_neg (fun h => absurd (take_head 5 h) (by decide))]
        rw [if_neg (show ¬(('\x7b' :: (serFields fs ++ '\x7d' :: rest)).head? = some '"')
          by simp)]
        rw [if_neg (show ¬(('\x7b' :: (serFields fs ++ '\x7d' :: rest)).head? = some '[')
          by simp)]
        rw [if_pos (by rfl)]
        rw [show ('\x7b' :: (serFields fs ++ '\x7d' :: rest)).drop 1 =
          serFields fs ++ '\x7d' :: rest from rfl]
        have hwl : wellFormedFields fs = true := by
          have h2 : (nodupKeysB fs && wellFormedFields fs) = true := by
            simpa [wellFormed] using hwf
          exact (Bool.and_eq_true_iff.mp h2).2
        have hsz' : sizeOf fs < fuel := by
          have hspec : sizeOf (Value.vobj fs) = 1 + sizeOf fs := by simp
          omega
        simp only [ihfs fs rest hsz' hwl]
    · -- parseElems
      intro es rest hsz hwl
      cases es with
      | nil =>
        rw [show serElems [] = [] from rfl, List.nil_append, parseElems]
        rw [if_pos (by rfl)]
        rfl
      | cons v vs =>
        rw [serElems_eq v vs, List.append_assoc]
        obtain ⟨hwfv, hwl'⟩ : wellFormed v = true ∧ wellFormedList vs = true := by
          have h2 : (wellFormed v && wellFormedList vs) = true := by
            simpa [wellFormedList] using hwl
          exact Bool.and_eq_true_iff.mp h2
        obtain ⟨c, t, hct, hcne⟩ := serialize_cons v hwfv
        rw [parseElems]
        rw [if_neg (show ¬((serialize v ++
            ((vs.flatMap fun w => ',' :: serialize w) ++ ']' :: rest)).head? = some ']') by
          rw [hct]
          simp [hcne])]
        have hsz1 : sizeOf v < fuel := by
          have hspec : sizeOf (v :: vs) = 1 + sizeOf v + sizeOf vs := by simp
          have : 0 < sizeOf vs := by cases vs <;> simp
          omega
        have hsz2 : sizeOf vs < fuel := by
          have hspec : sizeOf (v :: vs) = 1 + sizeOf v + sizeOf vs := by simp
          have : 0 < sizeOf v := by cases v <;> simp
          omega
        rw [ihv v _ hsz1 hwfv (elems_tail_head_notdigit vs rest)]
        simp only [iher vs rest hsz2 hwl']
    · -- parseElemsRest
      intro es rest hsz hwl
      cases es with
      | nil =>
        rw [show (([] : List Value).flatMap fun w => ',' :: serialize w) = [] from rfl,
          List.nil_append, parseElemsRest]
        rw [if_pos (by rfl)]
        rfl
      | cons v vs =>
        rw [show ((v :: vs).flatMap fun w => ',' :: serialize w) =
          ',' :: serialize v ++ (vs.flatMap fun w => ',' :: serialize w) by simp]
        rw [show (',' :: serialize v ++ (vs.flatMap fun w => ',' :: serialize w)) ++
          ']' :: rest = ',' :: (serialize v ++
            ((vs.flatMap fun w => ',' :: serialize w) ++ ']' :: rest)) by simp]
        obtain ⟨hwfv, hwl'⟩ : wellFormed v = true ∧ wellFormedList vs = true := by
          have h2 : (wellFormed v && wellFormedList vs) = true := by
            simpa [wellFormedList] using hwl
          exact Bool.and_eq_true_iff.mp h2
        rw [parseElemsRest]
        rw [if_neg (by simp)]
        rw [if_pos (by rfl)]
        rw [show (',' :: (serialize v ++
          ((vs.flatMap fun w => ',' :: serialize w) ++ ']' :: rest))).drop 1 =
          serialize v ++ ((vs.flatMap fun w => ',' :: serialize w) ++ ']' :: rest) from rfl]
        have hsz1 : sizeOf v < fuel := by
          have hspec : sizeOf (v :: vs) = 1 + sizeOf v + sizeOf vs := by simp
          have : 0 < sizeOf vs := by cases vs <;> simp
          omega
        have hsz2 : sizeOf vs < fuel := by
          have hspec : sizeOf (v :: vs) = 1 + sizeOf v + sizeOf vs := by simp
          have : 0 < sizeOf v := by cases v <;> simp
          omega
        rw [ihv v _ hsz1 hwfv (elems_tail_head_notdigit vs rest)]
        simp only [iher vs rest hsz2 hwl']
    · -- parseField
      intro kv rest hsz hwf hrest
      obtain ⟨k, v⟩ := kv
      rw [show (('"' :: escapeChars (k, v).1.data ++ '"' :: ':' :: serialize (k, v).2) ++
        rest) = '"' :: (escapeChars k.data ++ '"' :: (':' :: (serialize v ++ rest))) by simp]
      rw [parseField]
      rw [if_pos (by rfl)]
      rw [show ('"' :: (escapeChars k.data ++ '"' :: (':' :: (serialize v ++ rest)))).drop 1 =
        escapeChars k.data ++ '"' :: (':' :: (serialize v ++ rest)) from rfl]
      rw [parseStrBody_escape]
      have hsz' : sizeOf v < fuel := by
        have hspec : sizeOf (k, v) = 1 + sizeOf k + sizeOf v := by simp
        have : 0 < sizeOf k := by
          cases k
          simp
        omega
      have hv := ihv v rest hsz' hwf hrest
      show (match parseVal fuel (serialize v ++ rest) with
        | some (w, rest') => some ((String.mk k.data, w), rest')
        | none => none) = some ((k, v), rest)
      rw [hv]
    · -- parseFields
      intro fs rest hsz hwff
      cases fs with
      | nil =>
        rw [show serFields [] = [] from rfl, List.nil_append, parseFields]
        rw [if_pos (by rfl)]
        rfl
      | cons kv fs =>
        rw [serFields_eq kv fs, List.append_assoc]
        obtain ⟨k, v⟩ := kv
        obtain ⟨hwfv, hwff'⟩ : wellFormed v = true ∧ wellFormedFields fs = true := by
          have h2 : (wellFormed v && wellFormedFields fs) = true := by
            simpa [wellFormedFields] using hwff
          exact Bool.and_eq_true_iff.mp h2
        rw [parseFields]
        rw [if_neg (by simp)]
        have hsz1 : sizeOf (k, v) < fuel := by
          have hspec : sizeOf ((k, v) :: fs) = 1 + sizeOf (k, v) + sizeOf fs := by simp
          have : 0 < sizeOf fs := by cases fs <;> simp
          omega
        have hsz2 : sizeOf fs < fuel := by
          have hspec : sizeOf ((k, v) :: fs) = 1 + sizeOf (k, v) + sizeOf fs := by simp
          have : 0 < sizeOf (k, v) := by simp
          omega
        rw [ihf (k, v) _ hsz1 hwfv (fields_tail_head_notdigit fs rest)]
        simp only [ihfsr fs rest hsz2 hwff']
    · -- parseFieldsRest
      intro fs rest hsz hwff
      cases fs with
      | nil =>
        rw [show (([] : List (String × Value)).flatMap fun kw =>
          ',' :: ('"' :: escapeChars kw.1.data ++ '"' :: ':' :: serialize kw.2)) = []
          from rfl, List.nil_append, parseFieldsRest]
        rw [if_pos (by rfl)]
        rfl
      | cons kv fs =>
        obtain ⟨k, v⟩ := kv
        rw [show (((k, v) :: fs).flatMap fun kw =>
          ',' :: ('"' :: escapeChars kw.1.data ++ '"' :: ':' :: serialize kw.2)) =
          ',' :: ('"' :: escapeChars k.data ++ '"' :: ':' :: serialize v) ++
            (fs.flatMap fun kw =>
              ',' :: ('"' :: escapeChars kw.1.data ++ '"' :: ':' :: serialize kw.2)) by simp]
        rw [show ((',' :: ('"' :: escapeChars k.data ++ '"' :: ':' :: serialize v) ++
            (fs.flatMap fun kw =>
              ',' :: ('"' :: escapeChars kw.1.data ++ '"' :: ':' :: serialize kw.2))) ++
          '\x7d' :: rest) = ',' ::
            (('"' :: escapeChars k.data ++ '"' :: ':' :: serialize v) ++
              ((fs.flatMap fun kw =>
                ',' :: ('"' :: escapeChars kw.1.data ++ '"' :: ':' :: serialize kw.2)) ++
                '\x7d' :: rest)) by simp]
        obtain ⟨hwfv, hwff'⟩ : wellFormed v = true ∧ wellFormedFields fs = true := by
          have h2 : (wellFormed v && wellFormedFields fs) = true := by
            simpa [wellFormedFields] using hwff
          exact Bool.and_eq_true_iff.mp h2
        rw [parseFieldsRest]
        rw [if_neg (by simp)]
        rw [if_pos (by rfl)]
        rw [show ((',' ::
            (('"' :: escapeChars k.data ++ '"' :: ':' :: serialize v) ++
              ((fs.flatMap fun kw =>
                ',' :: ('"' :: escapeChars kw.1.data ++ '"' :: ':' :: serialize kw.2)) ++
                '\x7d' :: rest))) : List Char).drop 1 =
          ('"' :: escapeChars k.data ++ '"' :: ':' :: serialize v) ++
            ((fs.flatMap fun kw =>
              ',' :: ('"' :: escapeChars kw.1.data ++ '"' :: ':' :: serialize kw.2)) ++
              '\x7d' :: rest) from rfl]
        have hsz1 : sizeOf (k, v) < fuel := by
          have hspec : sizeOf ((k, v) :: fs) = 1 + sizeOf (k, v) + sizeOf fs := by simp
          have : 0 < sizeOf fs := by cases fs <;> simp
          omega
        have hsz2 : sizeOf fs < fuel := by
          have hspec : sizeOf ((k, v) :: fs) = 1 + sizeOf (k, v) + sizeOf fs := by simp
          have : 0 < sizeOf (k, v) := by simp
          omega
        rw [ihf (k, v) _ hsz1 hwfv (fields_tail_head_notdigit fs rest)]
        simp only [ihfsr fs rest hsz2 hwff']

/-! ### Canonical form: sorting and key facts -/

theorem strLe_total (a b : String) : strLe a b = true ∨ strLe b a = true := by
  rcases strLt_trichotomy a b with h | h | h
  · left
    simp [strLe, strLt_asymm h]
  · subst h
    left
    simp [strLe, strLt_irrefl]
  · right
    simp [strLe, strLt_asymm h]

theorem strLe_trans {a b c : String} (h1 : strLe a b = true) (h2 : strLe b c = true) :
    strLe a c = true := by
  simp [strLe] at h1 h2 ⊢
  cases h : strLt c a with
  | false => rfl
  | true =>
    exfalso
    rcases strLt_trichotomy a b with hab | hab | hab
    · exact absurd (strLt_trans h hab) (by simp [h2])
    · subst hab
      exact absurd h (by simp [h2])
    · exact absurd hab (by simp [h1])

theorem strLe_antisymm {a b : String} (h1 : strLe a b = true) (h2 : strLe b a = true) :
    a = b := by
  simp [strLe] at h1 h2
  exact strLt_eq_of_not h2 h1

theorem sortByKey_perm (fs : List (String × Value)) : (sortByKey fs).Perm fs :=
  List.perm_insertionSort fieldLE fs

theorem sortByKey_sorted (fs : List (String × Value)) :
    List.Sorted fieldLE (sortByKey fs) := by
  haveI : IsTotal (String × Value) fieldLE := ⟨fun a b => by
    rcases strLe_total a.1 b.1 with h | h
    · exact Or.inl h
    · exact Or.inr h⟩
  haveI : IsTrans (String × Value) fieldLE := ⟨fun _ _ _ h1 h2 => strLe_trans h1 h2⟩
  exact List.sorted_insertionSort fieldLE fs

theorem normalizeFields_fst (fs : List (String × Value)) :
    (normalizeFields fs).map Prod.fst = fs.map Prod.fst := by
  rw [normalizeFields_eq_map]
  simp

theorem mem_normalizeFields {k : String} {w : Value} {fs : List (String × Value)} :
    (k, w) ∈ normalizeFields fs ↔ ∃ v, (k, v) ∈ fs ∧ w = normalize v := by
  rw [normalizeFields_eq_map]
  rw [List.mem_map]
  constructor
  · intro ⟨kv, hkv, heq⟩
    obtain ⟨k1, v1⟩ := kv
    rw [Prod.mk.injEq] at heq
    exact ⟨v1, by rwa [← heq.1], heq.2.symm⟩
  · intro ⟨v, hv, hw⟩
    exact ⟨(k, v), hv, by rw [hw]⟩

theorem mem_sortByKey {kv : String × Value} {fs : List (String × Value)} :
    kv ∈ sortByKey fs ↔ kv ∈ fs :=
  (sortByKey_perm fs).mem_iff

theorem nodupKeysB_iff : ∀ fs : List (String × Value),
    nodupKeysB fs = true ↔ (fs.map Prod.fst).Nodup
  | [] => by simp [nodupKeysB]
  | (k, v) :: fs => by
    rw [show nodupKeysB ((k, v) :: fs) =
      (!(fs.any fun kv => kv.1 == k) && nodupKeysB fs) from rfl]
    rw [Bool.and_eq_true, List.map_cons, List.nodup_cons, ← nodupKeysB_iff fs]
    constructor
    · intro ⟨h1, h2⟩
      refine ⟨?_, h2⟩
      intro hk
      obtain ⟨kv, hkv, hfst⟩ := List.mem_map.mp hk
      have hany : (fs.any fun kv => kv.1 == k) = true :=
        List.any_eq_true.mpr ⟨kv, hkv, by simp [hfst]⟩
      rw [hany] at h1
      exact Bool.noConfusion h1
    · intro ⟨h1, h2⟩
      refine ⟨?_, h2⟩
      cases hany : (fs.any fun kv => kv.1 == k) with
      | false => rfl
      | true =>
        obtain ⟨kv, hkv, hbeq⟩ := List.any_eq_true.mp hany
        exact absurd (List.mem_map.mpr ⟨kv, hkv, by simpa using hbeq⟩) h1

theorem wellFormedFields_forall : ∀ fs : List (String × Value),
    wellFormedFields fs = true ↔ ∀ kv ∈ fs, wellFormed kv.2 = true
  | [] => by simp [wellFormedFields]
  | (k, v) :: fs => by
    simp [wellFormedFields, wellFormedFields_forall fs]

theorem wellFormedList_forall : ∀ es : List Value,
    wellFormedList es = true ↔ ∀ v ∈ es, wellFormed v = true
  | [] => by simp [wellFormedList]
  | v :: es => by
    simp [wellFormedList, wellFormedList_forall es]

theorem mem_eq_of_nodupKeys : ∀ (fs : List (String × Value)), nodupKeysB fs = true →
    ∀ (k : String) (v w : Value), (k, v) ∈ fs → (k, w) ∈ fs → v = w
  | [], _, _, _, _, hv, _ => absurd hv (by simp)
  | (k0, v0) :: fs, hnd, k, v, w, hv, hw => by
    have hnd0 : (!(fs.any fun kv => kv.1 == k0) && nodupKeysB fs) = true := hnd
    rw [Bool.and_eq_true] at hnd0
    obtain ⟨hhead, htail⟩ := hnd0
    have hno : ∀ u : Value, (k0, u) ∈ fs → False := by
      intro u hu
      have hany : (fs.any fun kv => kv.1 == k0) = true :=
        List.any_eq_true.mpr ⟨(k0, u), hu, by simp⟩
      rw [hany] at hhead
      exact Bool.noConfusion hhead
    rcases List.mem_cons.mp hv with h1 | h1 <;> rcases List.mem_cons.mp hw with h2 | h2
    · rw [Prod.mk.injEq] at h1 h2
      rw [h1.2, h2.2]
    · rw [Prod.mk.injEq] at h1
      exact absurd (h1.1 ▸ h2) (hno w)
    · rw [Prod.mk.injEq] at h2
      exact absurd (h2.1 ▸ h1) (hno v)
    · exact mem_eq_of_nodupKeys fs htail k v w h1 h2

theorem sizeOf_val_lt_of_mem {v : Value} {es : List Value} (h : v ∈ es) :
    sizeOf v < 1 + sizeOf es := by
  have := List.sizeOf_lt_of_mem h
  omega

theorem sizeOf_field_lt_of_mem {k : String} {v : Value} {fs : List (String × Value)}
    (h : (k, v) ∈ fs) : sizeOf v < 1 + sizeOf fs := by
  have h1 := List.sizeOf_lt_of_mem h
  have h2 : sizeOf (k, v) = 1 + sizeOf k + sizeOf v := by simp
  have h3 : 0 < sizeOf k := by
    cases k
    simp
  omega

/-! ### Normalization preserves well-formedness; the serializer is injective -/

mutual

theorem wellFormed_normalize : ∀ v : Value, wellFormed v = true →
    wellFormed (normalize v) = true
  | .vnull, _ => rfl
  | .vundef, h => absurd h (by simp [wellFormed])
  | .vbool b, _ => rfl
  | .vint n, _ => rfl
  | .vstr s, _ => rfl
  | .varr es, h => by
      rw [show normalize (.varr es) = .varr (normalizeList es) from rfl]
      exact wellFormedList_normalizeList es (by simpa [wellFormed] using h)
  | .vobj fs, h => by
      rw [show normalize (.vobj fs) = .vobj (sortByKey (normalizeFields fs)) from rfl]
      have h2 : (nodupKeysB fs && wellFormedFields fs) = true := h
      rw [Bool.and_eq_true] at h2
      have hf : wellFormedFields (normalizeFields fs) = true :=
        wellFormedFields_normalizeFields fs h2.2
      show (nodupKeysB (sortByKey (normalizeFields fs)) &&
        wellFormedFields (sortByKey (normalizeFields fs))) = true
      rw [Bool.and_eq_true]
      constructor
      · rw [nodupKeysB_iff]
        have hperm : ((sortByKey (normalizeFields fs)).map Prod.fst).Perm
            ((normalizeFields fs).map Prod.fst) := (sortByKey_perm _).map _
        rw [hperm.nodup_iff, normalizeFields_fst]
        exact (nodupKeysB_iff fs).mp h2.1
      · rw [wellFormedFields_forall]
        intro kv hkv
        rw [mem_sortByKey] at hkv
        exact (wellFormedFields_forall _).mp hf kv hkv

theorem wellFormedList_normalizeList : ∀ es : List Value, wellFormedList es = true →
    wellFormedList (normalizeList es) = true
  | [], _ => rfl
  | v :: es, h => by
      have h2 : (wellFormed v && wellFormedList es) = true := h
      rw [Bool.and_eq_true] at h2
      show (wellFormed (normalize v) && wellFormedList (normalizeList es)) = true
      rw [Bool.and_eq_true]
      exact ⟨wellFormed_normalize v h2.1, wellFormedList_normalizeList es h2.2⟩

theorem wellFormedFields_normalizeFields : ∀ fs : List (String × Value),
    wellFormedFields fs = true → wellFormedFields (normalizeFields fs) = true
  | [], _ => rfl
  | (k, v) :: fs, h => by
      have h2 : (wellFormed v && wellFormedFields fs) = true := h
      rw [Bool.and_eq_true] at h2
      show (wellFormed (normalize v) && wellFormedFields (normalizeFields fs)) = true
      rw [Bool.and_eq_true]
      exact ⟨wellFormed_normalize v h2.1, wellFormedFields_normalizeFields fs h2.2⟩

end

theorem serialize_inj {v w : Value} (hv : wellFormed v = true)
    (hw : wellFormed w = true) (h : serialize v = serialize w) : v = w := by
  have h1 := (parse_serialize (sizeOf v + sizeOf w + 1)).1 v []
    (by omega) hv (by simp)
  have h2 := (parse_serialize (sizeOf v + sizeOf w + 1)).1 w []
    (by omega) hw (by simp)
  rw [List.append_nil] at h1 h2
  rw [h] at h1
  rw [h1] at h2
  have h3 : v = w := by
    injection h2 with h4
    injection h4 with h5 h6
  exact h3

theorem stableStringify_eq_iff_normalize {a b : Value} (ha : wellFormed a = true)
    (hb : wellFormed b = true) :
    stableStringify a = stableStringify b ↔ normalize a = normalize b := by
  constructor
  · intro h
    rw [stableStringify, stableStringify] at h
    have hs : serialize (normalize a) = serialize (normalize b) := by
      have := congrArg String.data h
      simpa using this
    exact serialize_inj (wellFormed_normalize a ha) (wellFormed_normalize b hb) hs
  · intro h
    rw [stableStringify, stableStringify, h]

/-! ### Structural equality: an equivalence on well-formed values -/

theorem forall2_symm_of : ∀ (as bs : List Value),
    (∀ a ∈ as, ∀ b, StructEq a b → StructEq b a) →
    List.Forall₂ StructEq as bs → List.Forall₂ StructEq bs as
  | [], _, _, hf => by cases hf; exact .nil
  | a :: as, _, hmem, hf => by
    cases hf with
    | cons hab htail =>
      exact .cons (hmem a (by simp) _ hab)
        (forall2_symm_of as _ (fun x hx b hb => hmem x (by simp [hx]) b hb) htail)

theorem forall2_trans_of : ∀ (as bs cs : List Value),
    (∀ a ∈ as, ∀ b c, StructEq a b → StructEq b c → StructEq a c) →
    List.Forall₂ StructEq as bs → List.Forall₂ StructEq bs cs →
    List.Forall₂ StructEq as cs
  | [], _, _, _, hf, hg => by cases hf; cases hg; exact .nil
  | a :: as, _, _, hmem, hf, hg => by
    cases hf with
    | cons hab htail =>
      cases hg with
      | cons hbc htail2 =>
        exact .cons (hmem a (by simp) _ _ hab hbc)
          (forall2_trans_of as _ _ (fun x hx b c h1 h2 => hmem x (by simp [hx]) b c h1 h2)
            htail htail2)

theorem forall2_map_normalize_of : ∀ (es : List Value),
    (∀ v ∈ es, StructEq v (normalize v)) →
    List.Forall₂ StructEq es (es.map normalize)
  | [], _ => .nil
  | v :: es, hmem =>
    .cons (hmem v (by simp))
      (forall2_map_normalize_of es fun x hx => hmem x (by simp [hx]))

theorem sizeOf_varr (es : List Value) : sizeOf (Value.varr es) = 1 + sizeOf es := by
  simp

theorem sizeOf_vobj (fs : List (String × Value)) :
    sizeOf (Value.vobj fs) = 1 + sizeOf fs := by
  simp

theorem structEq_symm_aux : ∀ n : Nat, ∀ a b : Value, sizeOf a < n →
    StructEq a b → StructEq b a := by
  intro n
  induction n with
  | zero => intro a b hsz _; omega
  | succ n ihn =>
    intro a b hsz h
    cases h with
    | vnull => exact .vnull
    | vundef => exact .vundef
    | vbool b => exact .vbool b
    | vint m => exact .vint m
    | vstr s => exact .vstr s
    | varr hf =>
      rename_i as bs
      refine .varr (forall2_symm_of as bs ?_ hf)
      intro x hx b hb
      have hx1 := sizeOf_val_lt_of_mem hx
      have hx2 := sizeOf_varr as
      exact ihn x b (by omega) hb
    | vobj hkey hpt =>
      rename_i as bs
      refine .vobj (fun k => (hkey k).symm) ?_
      intro k v w hv hw
      have hx1 := sizeOf_field_lt_of_mem hw
      have hx2 := sizeOf_vobj as
      exact ihn w v (by omega) (hpt k w v hw hv)

theorem structEq_symm {a b : Value} (h : StructEq a b) : StructEq b a :=
  structEq_symm_aux (sizeOf a + 1) a b (by omega) h

theorem structEq_trans_aux : ∀ n : Nat, ∀ a b c : Value, sizeOf a < n →
    StructEq a b → StructEq b c → StructEq a c := by
  intro n
  induction n with
  | zero => intro a b c hsz _ _; omega
  | succ n ihn =>
    intro a b c hsz h1 h2
    cases h1 with
    | vnull => exact h2
    | vundef => exact h2
    | vbool b => exact h2
    | vint m => exact h2
    | vstr s => exact h2
    | varr hf =>
      rename_i as bs
      cases h2 with
      | varr hg =>
        rename_i cs
        refine .varr (forall2_trans_of as bs cs ?_ hf hg)
        intro x hx b c hb hc
        have hx1 := sizeOf_val_lt_of_mem hx
        have hx2 := sizeOf_varr as
        exact ihn x b c (by omega) hb hc
    | vobj hkey hpt =>
      rename_i as bs
      cases h2 with
      | vobj hkey2 hpt2 =>
        rename_i cs
        refine .vobj (fun k => (hkey k).trans (hkey2 k)) ?_
        intro k v u hv hu
        obtain ⟨w, hw⟩ := (hkey k).mp ⟨v, hv⟩
        have hx1 := sizeOf_field_lt_of_mem hv
        have hx2 := sizeOf_vobj as
        exact ihn v w u (by omega) (hpt k v w hv hw) (hpt2 k w u hw hu)

theorem structEq_trans {a b c : Value} (h1 : StructEq a b) (h2 : StructEq b c) :
    StructEq a c :=
  structEq_trans_aux (sizeOf a + 1) a b c (by omega) h1 h2

theorem structEq_normalize_aux : ∀ n : Nat, ∀ v : Value, sizeOf v < n →
    wellFormed v = true → StructEq v (normalize v) := by
  intro n
  induction n with
  | zero => intro v hsz _; omega
  | succ n ihn =>
    intro v hsz hwf
    cases v with
    | vnull => exact .vnull
    | vundef => simp [wellFormed] at hwf
    | vbool b => exact .vbool b
    | vint m => exact .vint m
    | vstr s => exact .vstr s
    | varr es =>
      rw [show normalize (.varr es) = .varr (normalizeList es) from rfl,
        normalizeList_eq_map]
      refine .varr (forall2_map_normalize_of es ?_)
      intro x hx
      have hx1 := sizeOf_val_lt_of_mem hx
      have hx2 := sizeOf_varr es
      have hwx : wellFormed x = true :=
        (wellFormedList_forall es).mp (by simpa [wellFormed] using hwf) x hx
      exact ihn x (by omega) hwx
    | vobj fs =>
      rw [show normalize (.vobj fs) = .vobj (sortByKey (normalizeFields fs)) from rfl]
      have h2 : (nodupKeysB fs && wellFormedFields fs) = true := hwf
      rw [Bool.and_eq_true] at h2
      refine .vobj ?_ ?_
      · intro k
        constructor
        · intro ⟨v, hv⟩
          exact ⟨normalize v, mem_sortByKey.mpr (mem_normalizeFields.mpr ⟨v, hv, rfl⟩)⟩
        · intro ⟨w, hw⟩
          obtain ⟨v, hv, _⟩ := mem_normalizeFields.mp (mem_sortByKey.mp hw)
          exact ⟨v, hv⟩
      · intro k v w hv hw
        obtain ⟨v2, hv2, hw2⟩ := mem_normalizeFields.mp (mem_sortByKey.mp hw)
        have hvv2 : v2 = v := mem_eq_of_nodupKeys fs h2.1 k v2 v hv2 hv
        subst hvv2
        rw [hw2]
        have hx1 := sizeOf_field_lt_of_mem hv
        have hx2 := sizeOf_vobj fs
        have hwx : wellFormed v2 = true :=
          (wellFormedFields_forall fs).mp h2.2 (k, v2) hv2
        exact ihn v2 (by omega) hwx

theorem structEq_normalize {v : Value} (hwf : wellFormed v = true) :
    StructEq v (normalize v) :=
  structEq_normalize_aux (sizeOf v + 1) v (by omega) hwf

/-! ### Key-sorted field lists are determined by their key-value extension -/

theorem sorted_keyext : ∀ (A B : List (String × Value)),
    List.Sorted fieldLE A → List.Sorted fieldLE B →
    (A.map Prod.fst).Nodup → (B.map Prod.fst).Nodup →
    (∀ k : String, (∃ v, (k, v) ∈ A) ↔ (∃ w, (k, w) ∈ B)) →
    (∀ (k : String) (v w : Value), (k, v) ∈ A → (k, w) ∈ B → v = w) →
    A = B
  | [], [], _, _, _, _, _, _ => rfl
  | [], (k2, v2) :: B, _, _, _, _, hkey, _ => by
    obtain ⟨v, hv⟩ := (hkey k2).mpr ⟨v2, by simp⟩
    cases hv
  | (k1, v1) :: A, [], _, _, _, _, hkey, _ => by
    obtain ⟨w, hw⟩ := (hkey k1).mp ⟨v1, by simp⟩
    cases hw
  | (k1, v1) :: A, (k2, v2) :: B, hsA, hsB, hndA, hndB, hkey, hpt => by
    have hk : k1 = k2 := by
      obtain ⟨w, hw⟩ := (hkey k1).mp ⟨v1, by simp⟩
      rcases List.mem_cons.mp hw with h | h
      · exact ((Prod.mk.injEq _ _ _ _).mp h).1
      · have h21 : strLe k2 k1 = true := (List.sorted_cons.mp hsB).1 (k1, w) h
        obtain ⟨v, hv⟩ := (hkey k2).mpr ⟨v2, by simp⟩
        rcases List.mem_cons.mp hv with h' | h'
        · exact ((Prod.mk.injEq _ _ _ _).mp h').1.symm
        · have h12 : strLe k1 k2 = true := (List.sorted_cons.mp hsA).1 (k2, v) h'
          exact strLe_antisymm h12 h21
    subst hk
    have hv12 : v1 = v2 := hpt k1 v1 v2 (by simp) (by simp)
    subst hv12
    rw [List.map_cons, List.nodup_cons] at hndA hndB
    congr 1
    refine sorted_keyext A B (List.sorted_cons.mp hsA).2 (List.sorted_cons.mp hsB).2
      hndA.2 hndB.2 ?_ ?_
    · intro k
      constructor
      · intro ⟨v, hv⟩
        have hkne : k ≠ k1 := by
          intro he
          subst he
          exact hndA.1 (List.mem_map.mpr ⟨(k, v), hv, rfl⟩)
        obtain ⟨w, hw⟩ := (hkey k).mp ⟨v, by simp [hv]⟩
        rcases List.mem_cons.mp hw with h | h
        · exact absurd ((Prod.mk.injEq _ _ _ _).mp h).1 hkne
        · exact ⟨w, h⟩
      · intro ⟨w, hw⟩
        have hkne : k ≠ k1 := by
          intro he
          subst he
          exact hndB.1 (List.mem_map.mpr ⟨(k, w), hw, rfl⟩)
        obtain ⟨v, hv⟩ := (hkey k).mpr ⟨w, by simp [hw]⟩
        rcases List.mem_cons.mp hv with h | h
        · exact absurd ((Prod.mk.injEq _ _ _ _).mp h).1 hkne
        · exact ⟨v, h⟩
    · intro k v w hv hw
      exact hpt k v w (by simp [hv]) (by simp [hw])

theorem normalizeList_eq_of : ∀ (as bs : List Value),
    (∀ a ∈ as, ∀ b, wellFormed a = true → wellFormed b = true → StructEq a b →
      normalize a = normalize b) →
    wellFormedList as = true → wellFormedList bs = true →
    List.Forall₂ StructEq as bs → normalizeList as = normalizeList bs
  | [], _, _, _, _, hf => by cases hf; rfl
  | a :: as, _, hmem, hwa, hwb, hf => by
    cases hf with
    | cons hab htail =>
      rename_i b bs
      have hwa2 : (wellFormed a && wellFormedList as) = true := hwa
      have hwb2 : (wellFormed b && wellFormedList bs) = true := hwb
      rw [Bool.and_eq_true] at hwa2 hwb2
      show normalize a :: normalizeList as = normalize b :: normalizeList bs
      rw [hmem a (by simp) b hwa2.1 hwb2.1 hab,
        normalizeList_eq_of as bs (fun x hx => hmem x (by simp [hx])) hwa2.2 hwb2.2 htail]

theorem structEq_normalize_eq_aux : ∀ n : Nat, ∀ a b : Value, sizeOf a < n →
    wellFormed a = true → wellFormed b = true → StructEq a b →
    normalize a = normalize b := by
  intro n
  induction n with
  | zero => intro a b h _ _ _; omega
  | succ n ihn =>
    intro a b hsz hwa hwb h
    cases h with
    | vnull => rfl
    | vundef => rfl
    | vbool b => rfl
    | vint m => rfl
    | vstr s => rfl
    | varr hf =>
      rename_i as bs
      show Value.varr (normalizeList as) = Value.varr (normalizeList bs)
      congr 1
      refine normalizeList_eq_of as bs ?_ (by simpa [wellFormed] using hwa)
        (by simpa [wellFormed] using hwb) hf
      intro x hx b2 hwx hwb2 hxb
      have hx1 := sizeOf_val_lt_of_mem hx
      have hx2 := sizeOf_varr as
      exact ihn x b2 (by omega) hwx hwb2 hxb
    | vobj hkey hpt =>
      rename_i as bs
      show Value.vobj (sortByKey (normalizeFields as)) =
        Value.vobj (sortByKey (normalizeFields bs))
      congr 1
      have hA : (nodupKeysB as && wellFormedFields as) = true := hwa
      have hB : (nodupKeysB bs && wellFormedFields bs) = true := hwb
      rw [Bool.and_eq_true] at hA hB
      refine sorted_keyext _ _ (sortByKey_sorted _) (sortByKey_sorted _) ?_ ?_ ?_ ?_
      · have hperm : ((sortByKey (normalizeFields as)).map Prod.fst).Perm
            ((normalizeFields as).map Prod.fst) := (sortByKey_perm _).map _
        rw [hperm.nodup_iff, normalizeFields_fst]
        exact (nodupKeysB_iff as).mp hA.1
      · have hperm : ((sortByKey (normalizeFields bs)).map Prod.fst).Perm
            ((normalizeFields bs).map Prod.fst) := (sortByKey_perm _).map _
        rw [hperm.nodup_iff, normalizeFields_fst]
        exact (nodupKeysB_iff bs).mp hB.1
      · intro k
        constructor
        · intro ⟨x, hx⟩
          obtain ⟨v, hv, _⟩ := mem_normalizeFields.mp (mem_sortByKey.mp hx)
          obtain ⟨w, hw⟩ := (hkey k).mp ⟨v, hv⟩
          exact ⟨normalize w, mem_sortByKey.mpr (mem_normalizeFields.mpr ⟨w, hw, rfl⟩)⟩
        · intro ⟨y, hy⟩
          obtain ⟨w, hw, _⟩ := mem_normalizeFields.mp (mem_sortByKey.mp hy)
          obtain ⟨v, hv⟩ := (hkey k).mpr ⟨w, hw⟩
          exact ⟨normalize v, mem_sortByKey.mpr (mem_normalizeFields.mpr ⟨v, hv, rfl⟩)⟩
      · intro k x y hx hy
        obtain ⟨v, hv, hx2⟩ := mem_normalizeFields.mp (mem_sortByKey.mp hx)
        obtain ⟨w, hw, hy2⟩ := mem_normalizeFields.mp (mem_sortByKey.mp hy)
        have hvw := hpt k v w hv hw
        have hs1 := sizeOf_field_lt_of_mem hv
        have hs2 := sizeOf_vobj as
        have hwv : wellFormed v = true := (wellFormedFields_forall as).mp hA.2 (k, v) hv
        have hww : wellFormed w = true := (wellFormedFields_forall bs).mp hB.2 (k, w) hw
        rw [hx2, hy2]
        exact ihn v w (by omega) hwv hww hvw

theorem structEq_normalize_eq {a b : Value} (ha : wellFormed a = true)
    (hb : wellFormed b = true) (h : StructEq a b) : normalize a = normalize b :=
  structEq_normalize_eq_aux (sizeOf a + 1) a b (by omega) ha hb h

theorem structEq_of_normalize_eq {a b : Value} (ha : wellFormed a = true)
    (hb : wellFormed b = true) (h : normalize a = normalize b) : StructEq a b := by
  refine structEq_trans (structEq_normalize ha) ?_
  rw [h]
  exact structEq_symm (structEq_normalize hb)

/-- C9: canonical serialization is a sound and complete identity for the venn
engine — for every pair of well-formed records `a`, `b`, the canonical string
of `a` equals the canonical string of `b` if and only if `a` and `b` are deep
structurally equal irrespective of field insertion order at every nesting
depth; structurally equal records always serialize identically, and
structurally unequal records never collide. -/
theorem stableStringify_eq_iff_structEq (a b : Value)
    (ha : wellFormed a = true) (hb : wellFormed b = true) :
    stableStringify a = stableStringify b ↔ StructEq a b := by
  rw [stableStringify_eq_iff_normalize ha hb]
  constructor
  · exact structEq_of_normalize_eq ha hb
  · exact structEq_normalize_eq ha hb

theorem stableStringify_eq_iff_structEq_witness :
    wellFormed (Value.vobj [("a", .vint 1), ("b", .vnull)]) = true ∧
    wellFormed (Value.vobj [("b", .vnull), ("a", .vint 1)]) = true ∧
    StructEq (Value.vobj [("a", .vint 1), ("b", .vnull)])
      (Value.vobj [("b", .vnull), ("a", .vint 1)]) :=
  ⟨rfl, rfl,
    (stableStringify_eq_iff_structEq
      (Value.vobj [("a", .vint 1), ("b", .vnull)])
      (Value.vobj [("b", .vnull), ("a", .vint 1)]) rfl rfl).mp rfl⟩

end AvroDiff
